import Mathlib

/-!
# Finite-element heat solver: classification, element stiffness, reduction

A shallow embedding of `readmsh.h`, `shapefunctions.h`, `inhomogeneousf.h` and the
loops of `main.cpp`, followed by the properties proved about them.

Conventions of the embedding.

* `size_t` values are natural numbers; subtraction on them wraps modulo `2 ^ 64`.
  `int` values are integers; a conversion to `int` wraps to 32 bits (two's complement),
  a conversion of an `int` to `size_t` wraps modulo `2 ^ 64`.
* A `double` holding a quantity computed from the mesh is a `Dbl`: arithmetic is exact,
  and a division by zero yields a non-finite value that every later sum, difference and
  product keeps non-finite.  Node coordinates are finite, hence rationals.
* A C array filled by consecutive writes is the list of the values written.
* The run of a part that allocates arrays ends in an `outcome`: a result, a request that
  `operator new[]` refuses, or a store past the end of an array.  A read past the end of an
  array yields a word that is a parameter of the embedding.
-/

namespace FEM

/-! ## Doubles in exact arithmetic -/

/-- A C++ double in exact arithmetic: a finite value, or a non-finite one (an infinity or
a NaN). -/
inductive Dbl where
  | fin : ℚ → Dbl
  | nan : Dbl
deriving DecidableEq

namespace Dbl

/-- Sum of two doubles: non-finite as soon as one operand is. -/
def add : Dbl → Dbl → Dbl
  | fin a, fin b => fin (a + b)
  | _, _ => nan

/-- Difference of two doubles: non-finite as soon as one operand is. -/
def sub : Dbl → Dbl → Dbl
  | fin a, fin b => fin (a - b)
  | _, _ => nan

/-- Product of two doubles: non-finite as soon as one operand is. -/
def mul : Dbl → Dbl → Dbl
  | fin a, fin b => fin (a * b)
  | _, _ => nan

/-- Quotient of two finite values: non-finite when the divisor is zero. -/
def divq (a b : ℚ) : Dbl :=
  if b = 0 then nan else fin (a / b)

instance : Add Dbl := ⟨add⟩
instance : Sub Dbl := ⟨sub⟩
instance : Mul Dbl := ⟨mul⟩
instance : Zero Dbl := ⟨fin 0⟩
instance : Inhabited Dbl := ⟨fin 0⟩

/-- Addition of doubles is associative and commutative with neutral element `0.0`, also
when an operand is non-finite. -/
instance : AddCommMonoid Dbl where
  nsmul := nsmulRec
  add_assoc := by
    intro a b c
    show add (add a b) c = add a (add b c)
    cases a <;> cases b <;> cases c <;> simp [add, add_assoc]
  zero_add := by
    intro a
    show add (fin 0) a = a
    cases a <;> simp [add]
  add_zero := by
    intro a
    show add a (fin 0) = a
    cases a <;> simp [add]
  add_comm := by
    intro a b
    show add a b = add b a
    cases a <;> cases b <;> simp [add, add_comm]

/-- Whether a double is a finite value. -/
def isFinite : Dbl → Bool
  | fin _ => true
  | nan => false

end Dbl

/-! ## Machine integers -/

/-- Conversion of a `size_t` to `int`: the low 32 bits, read in two's complement. -/
def size_to_int (n : Nat) : Int :=
  ((n : Int) + 2 ^ 31) % 2 ^ 32 - 2 ^ 31

/-- Conversion of an `int` to `size_t`: the value modulo `2 ^ 64`. -/
def int_to_size (z : Int) : Nat :=
  (z % 2 ^ 64).toNat

/-- Adding one to an `int`, wrapping at 32 bits. -/
def int_succ (z : Int) : Int :=
  (z + 1 + 2 ^ 31) % 2 ^ 32 - 2 ^ 31

/-- Subtraction of two `size_t` values. -/
def size_sub (a b : Nat) : Nat :=
  (a % 2 ^ 64 + 2 ^ 64 - b % 2 ^ 64) % 2 ^ 64

/-! ## readmsh.h: the mesh and the node classification -/

/-- A node: its position in the plane (`msh::point`). -/
structure point where
  x : ℚ
  y : ℚ
deriving DecidableEq

/-- An element: the node indices it is made of (the entries of `node_ids` that were
written) and its type (`msh::element`). -/
structure element where
  node_ids : List Nat
  type : Int
deriving DecidableEq

/-- Element type of a triangle in the mesh file. -/
def TRIANGLE_ID : Int := 2

/-- The separation of the nodes into boundary and interior nodes (`msh::__node_types`).
The array `interior_nodes` is allocated with `inode_len` entries; the list holds the values
that were written into it, in order. -/
structure node_types where
  boundary_nodes : List Nat
  interior_nodes : List Nat
  boundary_values : List Dbl
  bnode_len : Nat
  inode_len : Nat
deriving DecidableEq

/-- The loop `while (fgets(line, BUFFER, f))` of `set_node_types`: every line holds a node id
and a value; the id is stored one lower, the value as it is. -/
def read_boundary (spec : List (Nat × Dbl)) : List Nat × List Dbl :=
  spec.foldl (fun acc ln => (acc.1 ++ [size_sub ln.1 1], acc.2 ++ [ln.2])) ([], [])

/-- The loop `for (int j = start; j < end; ++j) interior_nodes[index++] = j`: the values it
writes. -/
def fill (start end_ : Int) : List Nat :=
  (List.range (end_ - start).toNat).map (fun k : Nat => int_to_size (start + (k : Int)))

/-- The loop `for (int i = 1; i < bnode_len + 1; ++i)` of `set_node_types`, from the state
`(i, start, end, interior_nodes)`; the first argument bounds the number of iterations, and
`junk` is what a read past the end of `boundary_nodes_sort` finds. The result is the state
in which the loop condition fails. -/
def gap_walk (node_len bnode_len : Nat) (sorted : List Nat) (junk : Nat) :
    Nat → Int → Int → Int → List Nat → Option (Int × Int × List Nat)
  | 0, _, _, _, _ => none
  | fuel + 1, i, start, end_, interior =>
    if int_to_size i < (bnode_len + 1) % 2 ^ 64 then
      gap_walk node_len bnode_len sorted junk fuel (int_succ i) (int_succ end_)
        (if int_to_size i = bnode_len then size_to_int node_len
          else size_to_int (sorted.getD (int_to_size i) junk))
        (interior ++ fill start end_)
    else some (start, end_, interior)

/-- The function `msh::__node_types::set_node_types`, for a boundary file whose first line
gives the number of lines that follow, `spec` being those lines (node id, value). `junk` is
what the read of `boundary_nodes_sort[0]` finds when the file has no such line. The list
`interior_nodes` of the result holds every value that the two fill loops write, also when
they are more than the `inode_len` entries allocated. An `int` counter takes each of its
`2 ^ 32` values at most once before the loop stops, which bounds the iterations. These are
the stores of the function; whether `operator new[]` grants its arrays and whether the
stores stay inside them is told by `set_node_types_call`. -/
def set_node_types (junk : Nat) (spec : List (Nat × Dbl)) (node_len : Nat) :
    Option node_types :=
  let bnode_len := spec.length
  let inode_len := size_sub node_len bnode_len
  let parsed := read_boundary spec
  let boundary_nodes_sort := parsed.1.insertionSort (· ≤ ·)
  match gap_walk node_len bnode_len boundary_nodes_sort junk (2 ^ 32) 1 0
      (size_to_int (boundary_nodes_sort.getD 0 junk)) [] with
  | none => none
  | some (start, end_, interior) =>
    some { boundary_nodes := parsed.1
           interior_nodes := interior ++ fill start end_
           boundary_values := parsed.2
           bnode_len := bnode_len
           inode_len := inode_len }

/-- How a part of the program that allocates an array and fills it ends: it runs to its end
and leaves a result; or `operator new[]` throws `std::bad_array_new_length`; or a store falls
past the end of the array, after which the language defines nothing of the run. -/
inductive outcome (α : Type) where
  | returns (result : α)
  | bad_array_new_length
  | out_of_bounds
deriving DecidableEq

/-- The expression `new T[n]` for a type `T` of `size` bytes: the request is refused, with
`std::bad_array_new_length`, when its byte count does not fit a `ptrdiff_t`. A request within
that bound is taken to be granted: the memory of the machine is not modelled. -/
def array_new (size n : Nat) : Bool :=
  decide (n * size < 2 ^ 63)

/-- The object that knows the nodes of the mesh and applies the shape functions
(`struct shape_function`); `nodes n` is the node stored at index `n`. -/
structure shape_function where
  nodes : Nat → point

namespace shape_function

/-- The array `x` of `triangle`: the x positions of the nodes, in the order passed. -/
def x (sf : shape_function) (i j k : Nat) : Fin 3 → ℚ :=
  ![(sf.nodes i).x, (sf.nodes j).x, (sf.nodes k).x]

/-- The array `y` of `triangle`: the y positions of the nodes, in the order passed. -/
def y (sf : shape_function) (i j k : Nat) : Fin 3 → ℚ :=
  ![(sf.nodes i).y, (sf.nodes j).y, (sf.nodes k).y]

/-- The array `a` of `triangle`. -/
def a (sf : shape_function) (i j k : Nat) : Fin 3 → ℚ :=
  ![sf.x i j k 1 - sf.x i j k 2, sf.x i j k 2 - sf.x i j k 0, sf.x i j k 0 - sf.x i j k 1]

/-- The array `b` of `triangle`. -/
def b (sf : shape_function) (i j k : Nat) : Fin 3 → ℚ :=
  ![sf.y i j k 1 - sf.y i j k 2, sf.y i j k 2 - sf.y i j k 0, sf.y i j k 0 - sf.y i j k 1]

/-- The jacobian `J` of `triangle`. -/
def J (sf : shape_function) (i j k : Nat) : ℚ :=
  |sf.a i j k 1 * sf.b i j k 2 - sf.a i j k 2 * sf.b i j k 1|

/-- The array `ind` of `triangle`. -/
def ind (i j k : Nat) : Fin 3 → Nat :=
  ![i, j, k]

/-- The value `1.0 / (2 * J) * (a[ii] * a[jj] + b[ii] * b[jj])` that `triangle` adds to one
entry of the stiffness matrix. -/
def entry (sf : shape_function) (i j k : Nat) (ii jj : Fin 3) : Dbl :=
  Dbl.divq 1 (2 * sf.J i j k)
    * Dbl.fin (sf.a i j k ii * sf.a i j k jj + sf.b i j k ii * sf.b i j k jj)

/-- The statement `K[c] += v`. -/
def add_at (K : Nat → Dbl) (c : Nat) (v : Dbl) : Nat → Dbl :=
  Function.update K c (K c + v)

/-- The function `shape_function::triangle`: `K` is the array of the entries of the stiffness
matrix, `row_len` the length of one row; the result is the array after the two nested loops
over `ii` and `jj`. Offsets into `K` are not reduced modulo `2 ^ 64`: for node indices below
`row_len` they stay below `row_len * row_len`, the number of entries of the array. -/
def triangle (sf : shape_function) (i j k : Nat) (K : Nat → Dbl) (row_len : Nat) : Nat → Dbl :=
  (List.finRange 3).foldl (fun K ii =>
    (List.finRange 3).foldl (fun K jj =>
      add_at K (ind i j k ii * row_len + ind i j k jj) (sf.entry i j k ii jj)) K) K

end shape_function

/-! ## inhomogeneousf.h: the source term -/

namespace inh

/-- The function `inh::constant`. The state is the static variable `_c`: `none` until the
first call initialises it with the argument of that call. The result is the value returned
and the state after the call. -/
def constant (c : Dbl) (st : Option Dbl) : Dbl × Option Dbl :=
  match st with
  | none => (c, some c)
  | some c0 => (c0, some c0)

/-- The function `inh::quadratic`. The state is the pair of static variables `(_a, _b)`:
`none` until the first call initialises them with the arguments `a`, `b` of that call. -/
def quadratic (x y a b : Dbl) (st : Option (Dbl × Dbl)) : Dbl × Option (Dbl × Dbl) :=
  match st with
  | none => (a * x * x + b * y * y, some (a, b))
  | some ab => (ab.1 * x * x + ab.2 * y * y, some ab)

end inh

/-! ## Dense matrices of the linear algebra library -/

/-- A dense matrix of doubles (`Eigen::MatrixXd`): its dimensions and its coefficients,
stored column after column, which is how `data()` exposes them. -/
structure MatrixXd where
  rows : Nat
  cols : Nat
  data : Nat → Dbl

namespace MatrixXd

/-- The matrix `Eigen::MatrixXd::Zero(rows, cols)`. -/
def Zero (rows cols : Nat) : MatrixXd :=
  ⟨rows, cols, fun _ => 0⟩

/-- The coefficient `M(i, j)`. -/
def coeff (M : MatrixXd) (i j : Nat) : Dbl :=
  M.data (i + j * M.rows)

/-- The assignment `M(i, j) = v`. -/
def set (M : MatrixXd) (i j : Nat) (v : Dbl) : MatrixXd :=
  { M with data := Function.update M.data (i + j * M.rows) v }

end MatrixXd

/-! ## main.cpp: assembly, reduction, back-substitution

The loops of `main` count with an `int` up to a `size_t` bound. The bounds are at most the
node count `N`, and the `N × N` matrix `K` of doubles has been allocated before the loops run,
which keeps `N` far below `2 ^ 31`: the counters are natural numbers here. The loops over the
element list are taken the same way, for an element list of fewer than `2 ^ 31` records. -/

/-- A mesh (`struct msh`): the nodes by index, the elements in the order stored
(`element_len` is the length of the list), the node count and the classification. -/
structure msh where
  nodes : Nat → point
  elements : List element
  node_len : Nat
  node_types : node_types

/-- The assembly loop of `main`: every triangle of the element list adds its stiffness to
the array `K`. An entry of `node_ids` that was never written reads as 0. -/
def assemble (m : msh) (K : Nat → Dbl) : Nat → Dbl :=
  m.elements.foldl (fun K element =>
    if element.type = TRIANGLE_ID then
      shape_function.triangle ⟨m.nodes⟩ (element.node_ids.getD 0 0) (element.node_ids.getD 1 0)
        (element.node_ids.getD 2 0) K m.node_len
    else K) K

/-- The loop `f(i) = inh::constant()` of `main`, from the load vector `f` and the state `st`
of `inh::constant`; the default argument of the call is 0. -/
def load_vector (node_len : Nat) (f : Nat → Dbl) (st : Option Dbl) : (Nat → Dbl) × Option Dbl :=
  (List.range node_len).foldl (fun acc i =>
    ((Function.update acc.1 i (inh.constant 0 acc.2).1), (inh.constant 0 acc.2).2)) (f, st)

/-- One pass of the body of the reduction loop of `main`, for the interior position `i`:
`acc` holds `K_unknowns` and `f_unknowns` before the pass. A read past the values written
into an array of the classification reads as 0. -/
def reduction_row (K : MatrixXd) (f : Nat → Dbl) (nt : node_types)
    (acc : MatrixXd × (Nat → Dbl)) (i : Nat) : MatrixXd × (Nat → Dbl) :=
  let index_i := nt.interior_nodes.getD i 0
  let sum := (List.range nt.bnode_len).foldl (fun sum j =>
    sum - K.coeff index_i (nt.boundary_nodes.getD j 0) * nt.boundary_values.getD j 0)
    (f index_i)
  let f_unknowns := Function.update acc.2 i sum
  let K_unknowns := (List.range nt.inode_len).foldl (fun Ku j =>
    Ku.set i j (K.coeff index_i (nt.interior_nodes.getD j 0))) acc.1
  (K_unknowns, f_unknowns)

/-- The reduction loop of `main`: from the stiffness matrix `K`, the load vector `f` and the
classification, the matrix `K_unknowns` and the vector `f_unknowns`, both zero at the
start. -/
def reduction (K : MatrixXd) (f : Nat → Dbl) (nt : node_types) : MatrixXd × (Nat → Dbl) :=
  (List.range nt.inode_len).foldl (reduction_row K f nt)
    (MatrixXd.Zero nt.inode_len nt.inode_len, fun _ => 0)

/-- The two back-substitution loops of `main`: `u` is the array `new double[node_len]` as
allocated, `u_unknowns` the solution of the reduced system. -/
def back_substitute (nt : node_types) (u_unknowns : Nat → Dbl) (u : Nat → Dbl) : Nat → Dbl :=
  let u := (List.range nt.bnode_len).foldl (fun u i =>
    Function.update u (nt.boundary_nodes.getD i 0) (nt.boundary_values.getD i 0)) u
  (List.range nt.inode_len).foldl (fun u i =>
    Function.update u (nt.interior_nodes.getD i 0) (u_unknowns i)) u

/-- The system that `main` hands to the solver: the source is configured by
`inh::constant(0)`, `K` is assembled from the zero matrix, `f` filled with the source, and
both are reduced with the classification of the mesh. -/
def reduced_system (m : msh) : MatrixXd × (Nat → Dbl) :=
  let st := (inh.constant 0 none).2
  let K : MatrixXd :=
    { MatrixXd.Zero m.node_len m.node_len with
      data := assemble m (MatrixXd.Zero m.node_len m.node_len).data }
  let f := (load_vector m.node_len (fun _ => 0) st).1
  reduction K f m.node_types

/-! ## Specification-side functions -/

/-- The integers from `start` up to `node_len` that a strictly ascending list leaves out,
gap by gap. -/
def gaps : Nat → List Nat → Nat → List Nat
  | start, [], node_len => List.range' start (node_len - start)
  | start, s :: rest, node_len => List.range' start (s - start) ++ gaps (s + 1) rest node_len

/-- The pairs `(ii, jj)` in the order in which the loops of `triangle` visit them. -/
def loop_pairs : List (Fin 3 × Fin 3) :=
  [(0, 0), (0, 1), (0, 2), (1, 0), (1, 1), (1, 2), (2, 0), (2, 1), (2, 2)]

/-- The writes of one call of `triangle`: offset into the array and value added, in the
order of the loops. -/
def shape_function.updates (sf : shape_function) (i j k row_len : Nat) : List (Nat × Dbl) :=
  loop_pairs.map (fun pq =>
    (shape_function.ind i j k pq.1 * row_len + shape_function.ind i j k pq.2,
      sf.entry i j k pq.1 pq.2))

/-- The array after a list of statements `K[c] += v`. -/
def apply_updates (K : Nat → Dbl) (us : List (Nat × Dbl)) : Nat → Dbl :=
  us.foldl (fun K u => shape_function.add_at K u.1 u.2) K

/-- The coefficients `a` of the specification: `a0 = x1 - x2`, `a1 = x2 - x0`,
`a2 = x0 - x1`. -/
def spec_a (P0 P1 P2 : point) : Fin 3 → ℚ :=
  ![P1.x - P2.x, P2.x - P0.x, P0.x - P1.x]

/-- The coefficients `b` of the specification: as `a`, with the y coordinates. -/
def spec_b (P0 P1 P2 : point) : Fin 3 → ℚ :=
  ![P1.y - P2.y, P2.y - P0.y, P0.y - P1.y]

/-- The Jacobian of the specification: `J = |a1 * b2 - a2 * b1|`. -/
def spec_J (P0 P1 P2 : point) : ℚ :=
  |spec_a P0 P1 P2 1 * spec_b P0 P1 P2 2 - spec_a P0 P1 P2 2 * spec_b P0 P1 P2 1|

/-- The local stiffness entry of the specification:
`(1 / (2 J)) * (a_p * a_q + b_p * b_q)`. -/
def spec_local (P0 P1 P2 : point) (p q : Fin 3) : ℚ :=
  1 / (2 * spec_J P0 P1 P2)
    * (spec_a P0 P1 P2 p * spec_a P0 P1 P2 q + spec_b P0 P1 P2 p * spec_b P0 P1 P2 q)

/-- The node array of a mesh with three nodes `P0`, `P1`, `P2`. -/
def three_nodes (P0 P1 P2 : point) : Nat → point :=
  fun n => if n = 0 then P0 else if n = 1 then P1 else P2

/-- A classification partitions `[0, N)`: the arrays have the lengths recorded, and the
boundary indices followed by the interior indices are a rearrangement of `0, ..., N - 1`. -/
def node_types.partitions (nt : node_types) (N : Nat) : Prop :=
  nt.bnode_len = nt.boundary_nodes.length ∧ nt.boundary_values.length = nt.boundary_nodes.length
    ∧ nt.inode_len = nt.interior_nodes.length
    ∧ (nt.boundary_nodes ++ nt.interior_nodes).Perm (List.range N)

instance (nt : node_types) (N : Nat) : Decidable (nt.partitions N) := by
  unfold node_types.partitions
  infer_instance

/-- The assignments `u[index] = value` of the two back-substitution loops, in the order in
which they are made. -/
def back_substitute_trace (nt : node_types) (u_unknowns : Nat → Dbl) : List (Nat × Dbl) :=
  (List.range nt.bnode_len).map
      (fun i => (nt.boundary_nodes.getD i 0, nt.boundary_values.getD i 0))
    ++ (List.range nt.inode_len).map (fun i => (nt.interior_nodes.getD i 0, u_unknowns i))

/-- The sum `Σ_{j < n} g j`. -/
def sum_below (n : Nat) (g : Nat → Dbl) : Dbl :=
  ((List.range n).map g).sum

/-- The writes that the assembly loop makes for one element: those of `triangle` for a
triangle, none for another element. -/
def element_updates (m : msh) (el : element) : List (Nat × Dbl) :=
  if el.type = TRIANGLE_ID then
    shape_function.updates ⟨m.nodes⟩ (el.node_ids.getD 0 0) (el.node_ids.getD 1 0)
      (el.node_ids.getD 2 0) m.node_len
  else []

/-- Exchange of the local vertex numbers 0 and 1. -/
def swap01 : Fin 3 → Fin 3 :=
  ![1, 0, 2]

/-- Exchange of the local vertex numbers 1 and 2. -/
def swap12 : Fin 3 → Fin 3 :=
  ![0, 2, 1]

/-- The scalar product of the two edges that leave the vertex `V` for `A` and for `B`; it is
positive exactly when the angle of the triangle at `V` is acute. -/
def dot_at (V A B : point) : ℚ :=
  (A.x - V.x) * (B.x - V.x) + (A.y - V.y) * (B.y - V.y)

/-- The mesh of one triangle on the three nodes `P0`, `P1`, `P2`, listed in the element in
the order `e0, e1, e2`, with the classification `nt`. -/
def single_triangle (P0 P1 P2 : point) (e0 e1 e2 : Nat) (nt : node_types) : msh :=
  ⟨three_nodes P0 P1 P2, [⟨[e0, e1, e2], TRIANGLE_ID⟩], 3, nt⟩


/-! ## readmsh.h: the elements section of the mesh file -/

/-- Element type of a point in the mesh file. -/
def POINT_ID : Int := 15

/-- Element type of an edge in the mesh file. -/
def EDGE_ID : Int := 1

/-- Element type of a quadrangle in the mesh file. -/
def QUADRANGLE_ID : Int := 3

/-- Element type of a 6 node 2nd order triangle in the mesh file. -/
def TRIANGLE_2ND_ID : Int := 9

/-- Element type of an 8 node 2nd order quadrangle in the mesh file. -/
def QUADRANGLE_2ND_ID : Int := 16

/-- One entity block of the `$Elements` section: the element type of its header line and its
element lines; a line is given by the numbers that follow its element tag, the node ids. The
count `c` of the header line is the number of the lines. -/
structure element_block where
  type : Int
  lines : List (List Nat)
deriving DecidableEq

/-- The `sscanf` of an element line with `n` conversions `%zd` after the skipped tag, and the
`n` decrements that follow it. Entry `p` of `node_ids` takes id `p` of the line; where the
line has no such id the conversion is not made and the entry keeps the word `old p` that the
fresh array held there. Each of the `n` entries is then made one lower. -/
def scan_ids (n : Nat) (ids : List Nat) (old : Nat → Nat) : List Nat :=
  (List.range n).map (fun p => size_sub (ids.getD p (old p)) 1)

/-- The statements of one recognized element type, `n` being its number of nodes: the record
`elements[index]` is written (`index` is the number of records stored so far) and `index`
is advanced. The array has `declared` records; `old index` are the words that record `index`
held when the array was allocated. -/
def store_record (declared : Nat) (old : Nat → Nat → Nat) (n : Nat) (type : Int)
    (ids : List Nat) (elements : List element) : outcome (List element) :=
  if elements.length < declared then
    outcome.returns (elements ++ [⟨scan_ids n ids (old elements.length), type⟩])
  else outcome.out_of_bounds

/-- The body of the loop `for (int i = 0; i < c; ++i)` of the `$Elements` section for one
line: `elements` are the records stored so far, `elements[index]` is the next one. -/
def store_element (declared : Nat) (old : Nat → Nat → Nat) (type : Int) (ids : List Nat)
    (elements : List element) : outcome (List element) :=
  if type = POINT_ID then outcome.returns elements
  else if type = EDGE_ID then outcome.returns elements
  else if type = TRIANGLE_ID then store_record declared old 3 type ids elements
  else if type = QUADRANGLE_ID then store_record declared old 4 type ids elements
  else if type = TRIANGLE_2ND_ID then store_record declared old 6 type ids elements
  else if type = QUADRANGLE_2ND_ID then store_record declared old 8 type ids elements
  else outcome.returns elements

/-- One more line of the section, from the state that the lines before it left. -/
def next_line (declared : Nat) (old : Nat → Nat → Nat) (type : Int)
    (st : outcome (List element)) (ids : List Nat) : outcome (List element) :=
  match st with
  | outcome.returns elements => store_element declared old type ids elements
  | outcome.bad_array_new_length => outcome.bad_array_new_length
  | outcome.out_of_bounds => outcome.out_of_bounds

/-- The `$Elements` section of the constructor `msh::msh`: `declared` is the element count of
the section header, with which the array `elements` is requested (a record takes 72 bytes:
eight `size_t` and an `int`, padded), `blocks` are the entity blocks up to `$EndElements`, and
`old` are the words of the fresh array. The result is the list of the records stored and the
final value of `element_len`. -/
def read_elements (old : Nat → Nat → Nat) (declared : Nat) (blocks : List element_block) :
    outcome (List element × Nat) :=
  if array_new 72 declared then
    match blocks.foldl (fun st block =>
        block.lines.foldl (next_line declared old block.type) st) (outcome.returns []) with
    | outcome.returns elements => outcome.returns (elements, elements.length)
    | outcome.bad_array_new_length => outcome.bad_array_new_length
    | outcome.out_of_bounds => outcome.out_of_bounds
  else outcome.bad_array_new_length

/-! ## main.cpp: the stiffness matrix and the output of the result -/

/-- The matrix `K` of `main` after the assembly loop: allocated as
`MatrixXd::Zero(node_len, node_len)`, its array `K.data()` filled by the assembly. -/
def global_K (m : msh) : MatrixXd :=
  { MatrixXd.Zero m.node_len m.node_len with
    data := assemble m (MatrixXd.Zero m.node_len m.node_len).data }

/-- What one `fprintf` of the output loop writes: a line with the three numbers `x`, `y`, `u`
(printed with two decimals), or the two line ends that close an element. -/
inductive out_item where
  | sample : ℚ → ℚ → Dbl → out_item
  | blank : out_item
deriving DecidableEq

/-- The output loop of `main` between `$map << EOD` and `EOD`: `u` is the full solution. -/
def write_map (m : msh) (u : Nat → Dbl) : List out_item :=
  m.elements.foldl (fun out element =>
    (if element.type = TRIANGLE_ID then
      (List.range 4).foldl (fun out ii =>
        out ++ [out_item.sample (m.nodes (element.node_ids.getD (ii % 3) 0)).x
          (m.nodes (element.node_ids.getD (ii % 3) 0)).y
          (u (element.node_ids.getD (ii % 3) 0))]) out
    else out) ++ [out_item.blank]) []

/-! ## Specification-side functions for the later properties -/

/-- The element records of the `$Elements` section in source order: type tag and node ids. -/
def element_records (blocks : List element_block) : List (Int × List Nat) :=
  blocks.flatMap (fun block => block.lines.map (fun ids => (block.type, ids)))

/-- The number of nodes of an element of a recognized type, 0 for every other type. -/
def nodes_of_type (type : Int) : Nat :=
  if type = 2 then 3 else if type = 3 then 4 else if type = 9 then 6
  else if type = 16 then 8 else 0

/-- The recognized element types: triangle, quadrangle and their 2nd order variants. -/
def recognized (type : Int) : Bool :=
  decide (type = 2 ∨ type = 3 ∨ type = 9 ∨ type = 16)

/-- The element list that the section should leave: its records of a recognized type in
source order, record number `k` of them with its type tag and the node ids scanned for its
type into the fresh record `k`. -/
def stored_records (old : Nat → Nat → Nat) (blocks : List element_block) : List element :=
  (((element_records blocks).filter (fun r => recognized r.1)).enum).map
    (fun kr => ⟨scan_ids (nodes_of_type kr.2.1) kr.2.2 (old kr.1), kr.2.1⟩)

/-- The results of the calls `inh::constant(c)` for the arguments `cs`, made one after the
other from the state `st`. -/
def constant_calls : List Dbl → Option Dbl → List Dbl
  | [], _ => []
  | c :: cs, st => (inh.constant c st).1 :: constant_calls cs (inh.constant c st).2

/-- The results of the calls `inh::quadratic(x, y, a, b)` for the arguments `args`, made one
after the other from the state `st`. -/
def quadratic_calls : List (Dbl × Dbl × Dbl × Dbl) → Option (Dbl × Dbl) → List Dbl
  | [], _ => []
  | q :: qs, st =>
    (inh.quadratic q.1 q.2.1 q.2.2.1 q.2.2.2 st).1
      :: quadratic_calls qs (inh.quadratic q.1 q.2.1 q.2.2.1 q.2.2.2 st).2

/-- Three points lie on one line `α x + β y = γ`. -/
def collinear (P0 P1 P2 : point) : Prop :=
  ∃ α β γ : ℚ, (α ≠ 0 ∨ β ≠ 0) ∧ α * P0.x + β * P0.y = γ ∧ α * P1.x + β * P1.y = γ
    ∧ α * P2.x + β * P2.y = γ

/-- The sum of the values that a list of statements `K[c] += v` adds to the entry `c`. -/
def added_at (us : List (Nat × Dbl)) (c : Nat) : Dbl :=
  ((us.filter (fun u => decide (u.1 = c))).map Prod.snd).sum

/-- The four samples of a triangle in the output: its vertices 0, 1, 2 and again 0. -/
def outline (m : msh) (u : Nat → Dbl) (el : element) : List out_item :=
  [el.node_ids.getD 0 0, el.node_ids.getD 1 0, el.node_ids.getD 2 0, el.node_ids.getD 0 0].map
    (fun n => out_item.sample (m.nodes n).x (m.nodes n).y (u n))
/-! ## Arithmetic of doubles -/

namespace Dbl

@[simp] theorem fin_add_fin (a b : ℚ) : fin a + fin b = fin (a + b) := rfl
@[simp] theorem nan_add (a : Dbl) : nan + a = nan := by cases a <;> rfl
@[simp] theorem add_nan (a : Dbl) : a + nan = nan := by cases a <;> rfl
@[simp] theorem fin_sub_fin (a b : ℚ) : fin a - fin b = fin (a - b) := rfl
@[simp] theorem nan_sub (a : Dbl) : nan - a = nan := by cases a <;> rfl
@[simp] theorem sub_nan (a : Dbl) : a - nan = nan := by cases a <;> rfl
@[simp] theorem fin_mul_fin (a b : ℚ) : fin a * fin b = fin (a * b) := rfl
@[simp] theorem nan_mul (a : Dbl) : nan * a = nan := by cases a <;> rfl
@[simp] theorem mul_nan (a : Dbl) : a * nan = nan := by cases a <;> rfl
@[simp] theorem fin_zero : fin 0 = (0 : Dbl) := rfl

theorem divq_of_ne (a : ℚ) {b : ℚ} (h : b ≠ 0) : divq a b = fin (a / b) := by
  simp [divq, h]

@[simp] theorem divq_zero (a : ℚ) : divq a 0 = nan := by
  simp [divq]

theorem sub_sub_eq (a b c : Dbl) : a - b - c = a - (b + c) := by
  cases a <;> cases b <;> cases c <;> simp [sub_sub]

theorem fin_injective {a b : ℚ} (h : fin a = fin b) : a = b := by
  injection h

end Dbl

namespace Dbl

theorem sub_zero_eq (a : Dbl) : a - 0 = a := by
  cases a
  · show fin _ - fin 0 = _
    rw [fin_sub_fin, sub_zero]
  · rfl

end Dbl

namespace Dbl

theorem eq_fin_of_isFinite {a : Dbl} (h : a.isFinite = true) : ∃ q, a = fin q := by
  cases a with
  | fin q => exact ⟨q, rfl⟩
  | nan => cases h

theorem isFinite_zero : (0 : Dbl).isFinite = true := rfl

theorem isFinite_add {a b : Dbl} (ha : a.isFinite = true) (hb : b.isFinite = true) :
    (a + b).isFinite = true := by
  obtain ⟨p, rfl⟩ := eq_fin_of_isFinite ha
  obtain ⟨q, rfl⟩ := eq_fin_of_isFinite hb
  rfl

theorem isFinite_mul {a b : Dbl} (ha : a.isFinite = true) (hb : b.isFinite = true) :
    (a * b).isFinite = true := by
  obtain ⟨p, rfl⟩ := eq_fin_of_isFinite ha
  obtain ⟨q, rfl⟩ := eq_fin_of_isFinite hb
  rfl

theorem isFinite_sum (l : List Dbl) (h : ∀ a ∈ l, a.isFinite = true) : l.sum.isFinite = true := by
  induction l with
  | nil => rfl
  | cons a l ih =>
    rw [List.sum_cons]
    exact isFinite_add (h a (List.mem_cons_self _ _))
      (ih (fun b hb => h b (List.mem_cons_of_mem _ hb)))

theorem add_sub_cancel_of_isFinite {a b : Dbl} (ha : a.isFinite = true)
    (hb : b.isFinite = true) : a + (b - a) = b := by
  obtain ⟨p, rfl⟩ := eq_fin_of_isFinite ha
  obtain ⟨q, rfl⟩ := eq_fin_of_isFinite hb
  simp

end Dbl

/-! ## Machine integers: values in range are not changed -/

theorem size_to_int_of_lt {n : Nat} (h : n < 2 ^ 31) : size_to_int n = (n : Int) := by
  unfold size_to_int
  omega

theorem int_to_size_of_lt {n : Nat} (h : n < 2 ^ 64) : int_to_size (n : Int) = n := by
  unfold int_to_size
  omega

theorem int_succ_of_lt {n : Nat} (h : n + 1 < 2 ^ 31) : int_succ (n : Int) = ((n + 1 : Nat) : Int) := by
  unfold int_succ
  omega

theorem size_sub_of_le {a b : Nat} (hb : b ≤ a) (ha : a < 2 ^ 64) : size_sub a b = a - b := by
  unfold size_sub
  omega

theorem fill_of_lt (a b : Nat) (hb : b < 2 ^ 64) : fill (a : Int) (b : Int) = List.range' a (b - a) := by
  unfold fill
  have h1 : ((b : Int) - (a : Int)).toNat = b - a := by omega
  rw [h1, List.range'_eq_map_range]
  apply List.map_congr_left
  intro k hk
  have hk' : k < b - a := List.mem_range.mp hk
  have h2 : ((a : Int) + (k : Int)) = ((a + k : Nat) : Int) := by push_cast; ring
  rw [h2, int_to_size_of_lt (by omega)]

/-! ## The gaps of a strictly ascending list -/

theorem gaps_eq_filter (node_len : Nat) :
    ∀ (S : List Nat) (start : Nat), S.Pairwise (· < ·) → (∀ s ∈ S, start ≤ s ∧ s < node_len) →
      gaps start S node_len
        = (List.range' start (node_len - start)).filter (fun n => decide (n ∉ S)) := by
  intro S
  induction S with
  | nil =>
    intro start _ _
    simp [gaps]
  | cons s rest ih =>
    intro start hS hb
    have hs := hb s (List.mem_cons_self _ _)
    have hrest : ∀ r ∈ rest, s < r := (List.pairwise_cons.mp hS).1
    have hsplit : List.range' start (node_len - start)
        = List.range' start (s - start) ++ (s :: List.range' (s + 1) (node_len - (s + 1))) := by
      have h1 : node_len - start = ((node_len - (s + 1)) + 1) + (s - start) := by omega
      have h2 : start + (s - start) = s := by omega
      rw [h1, ← List.range'_append_1, h2, List.range'_succ]
    rw [hsplit, List.filter_append, List.filter_cons]
    have h3 : (List.range' start (s - start)).filter (fun n => decide (n ∉ s :: rest))
        = List.range' start (s - start) := by
      rw [List.filter_eq_self]
      intro a ha
      have ha' := List.mem_range'_1.mp ha
      simp only [List.mem_cons, not_or, decide_eq_true_eq]
      refine ⟨by omega, fun hmem => ?_⟩
      have := hrest a hmem
      omega
    have h4 : (List.range' (s + 1) (node_len - (s + 1))).filter (fun n => decide (n ∉ s :: rest))
        = (List.range' (s + 1) (node_len - (s + 1))).filter (fun n => decide (n ∉ rest)) := by
      apply List.filter_congr
      intro a ha
      have ha' := List.mem_range'_1.mp ha
      have hne : a ≠ s := by omega
      simp [hne]
    rw [h3, h4]
    simp only [List.mem_cons, true_or, not_true_eq_false, decide_False, Bool.false_eq_true,
      if_false]
    rw [gaps, ih (s + 1) (List.pairwise_cons.mp hS).2]
    intro r hr
    have := hrest r hr
    have := hb r (List.mem_cons_of_mem _ hr)
    omega

theorem length_gaps (node_len : Nat) :
    ∀ (S : List Nat) (start : Nat), S.Pairwise (· < ·) → (∀ s ∈ S, start ≤ s ∧ s < node_len) →
      start ≤ node_len → (gaps start S node_len).length = node_len - start - S.length := by
  intro S
  induction S with
  | nil =>
    intro start _ _ _
    simp [gaps]
  | cons s rest ih =>
    intro start hS hb hle
    have hs := hb s (List.mem_cons_self _ _)
    have hrest : ∀ r ∈ rest, s < r := (List.pairwise_cons.mp hS).1
    have hb' : ∀ r ∈ rest, s + 1 ≤ r ∧ r < node_len := by
      intro r hr
      have := hrest r hr
      have := hb r (List.mem_cons_of_mem _ hr)
      omega
    have hlen : rest.length ≤ node_len - (s + 1) := by
      have hnd : rest.Nodup := (List.pairwise_cons.mp hS).2.imp (fun h => Nat.ne_of_lt h)
      have hsub : rest ⊆ List.range' (s + 1) (node_len - (s + 1)) := by
        intro r hr
        have := hb' r hr
        exact List.mem_range'_1.mpr (by omega)
      have := (List.subperm_of_subset hnd hsub).length_le
      simpa using this
    rw [gaps, List.length_append, List.length_range', ih (s + 1) (List.pairwise_cons.mp hS).2 hb'
      (by omega), List.length_cons]
    omega

/-! ## The gap walk on a well-formed boundary list -/

theorem getD_append_succ (pre : List Nat) (s s' : Nat) (rest : List Nat) (d : Nat) :
    (pre ++ s :: s' :: rest).getD (pre.length + 1) d = s' := by
  induction pre with
  | nil => rfl
  | cons p pre ih => simpa using ih

theorem gap_walk_sorted (node_len junk : Nat) (hN : node_len < 2 ^ 31) :
    ∀ (rest pre : List Nat) (s start extra : Nat) (interior : List Nat),
      (s :: rest).Pairwise (· < ·) → (∀ r ∈ s :: rest, r < node_len) →
      (pre ++ s :: rest).length ≤ node_len → start ≤ s →
      ∃ st : Int × Int × List Nat,
        gap_walk node_len (pre ++ s :: rest).length (pre ++ s :: rest) junk
            (rest.length + 2 + extra) ((pre.length + 1 : Nat) : Int) (start : Int) (s : Int)
            interior = some st
          ∧ st.2.2 ++ fill st.1 st.2.1 = interior ++ gaps start (s :: rest) node_len := by
  intro rest
  induction rest with
  | nil =>
    intro pre s start extra interior hS hb hlen hst
    have hs := hb s (List.mem_cons_self _ _)
    have hi : int_to_size ((pre.length + 1 : Nat) : Int) = pre.length + 1 :=
      int_to_size_of_lt (by simp at hlen; omega)
    have hl : (pre ++ [s]).length = pre.length + 1 := by simp
    have hle : pre.length + 1 ≤ node_len := by rw [← hl]; exact hlen
    have hexit : ¬ (int_to_size (int_succ ((pre.length + 1 : Nat) : Int))
        < (pre.length + 1 + 1) % 2 ^ 64) := by
      unfold int_to_size int_succ
      omega
    refine ⟨(((s + 1 : Nat) : Int), (node_len : Int), interior ++ fill (start : Int) (s : Int)), ?_, ?_⟩
    · have hf : ([] : List Nat).length + 2 + extra = (extra + 1) + 1 := by simp; omega
      rw [hf, gap_walk, hl, hi]
      have hc : pre.length + 1 < (pre.length + 1 + 1) % 2 ^ 64 := by omega
      rw [if_pos hc, if_pos rfl, gap_walk, if_neg hexit, int_succ_of_lt (by omega),
        size_to_int_of_lt hN]
    · simp only [gaps]
      rw [fill_of_lt _ _ (by omega), fill_of_lt _ _ (by omega), List.append_assoc]
  | cons s' rest ih =>
    intro pre s start extra interior hS hb hlen hst
    have hs := hb s (List.mem_cons_self _ _)
    have hs' := hb s' (List.mem_cons_of_mem _ (List.mem_cons_self _ _))
    have hlt : s < s' := (List.pairwise_cons.mp hS).1 s' (List.mem_cons_self _ _)
    have hl : (pre ++ s :: s' :: rest).length = pre.length + 1 + (rest.length + 1) := by
      simp; omega
    have hi : int_to_size ((pre.length + 1 : Nat) : Int) = pre.length + 1 :=
      int_to_size_of_lt (by omega)
    have hi2 : int_succ ((pre.length + 1 : Nat) : Int) = ((pre.length + 1 + 1 : Nat) : Int) :=
      int_succ_of_lt (by omega)
    have hpre : pre ++ s :: s' :: rest = (pre ++ [s]) ++ s' :: rest := by simp
    have hpl : (pre ++ [s]).length = pre.length + 1 := by simp
    obtain ⟨st, hst1, hst2⟩ := ih (pre ++ [s]) s' (s + 1) extra (interior ++ fill (start : Int) (s : Int))
      (List.pairwise_cons.mp hS).2 (fun r hr => hb r (List.mem_cons_of_mem _ hr))
      (by rw [← hpre]; exact hlen) (by omega)
    refine ⟨st, ?_, ?_⟩
    · have hf : (s' :: rest).length + 2 + extra = (rest.length + 2 + extra) + 1 := by
        simp; omega
      rw [hf, gap_walk, hi]
      have hc : pre.length + 1 < ((pre ++ s :: s' :: rest).length + 1) % 2 ^ 64 := by
        rw [hl]; omega
      have hne : ¬ (pre.length + 1 = (pre ++ s :: s' :: rest).length) := by
        rw [hl]; omega
      rw [if_pos hc, if_neg hne, getD_append_succ, hi2, int_succ_of_lt (by omega),
        size_to_int_of_lt (by omega)]
      rw [hpl, ← hpre] at hst1
      exact hst1
    · rw [hst2]
      simp only [gaps]
      rw [fill_of_lt _ _ (by omega), List.append_assoc]

theorem read_boundary_eq (spec : List (Nat × Dbl)) :
    read_boundary spec = (spec.map (fun ln => size_sub ln.1 1), spec.map Prod.snd) := by
  have h : ∀ (l : List (Nat × Dbl)) (acc : List Nat × List Dbl),
      l.foldl (fun acc ln => (acc.1 ++ [size_sub ln.1 1], acc.2 ++ [ln.2])) acc
        = (acc.1 ++ l.map (fun ln => size_sub ln.1 1), acc.2 ++ l.map Prod.snd) := by
    intro l
    induction l with
    | nil => intro acc; simp
    | cons a l ih => intro acc; simp [ih]
  simpa [read_boundary] using h spec ([], [])

/-- What `set_node_types` computes on a boundary file that names distinct nodes of the
mesh, at least one, when the node count fits an `int`. -/
theorem set_node_types_valid (junk node_len : Nat) (spec : List (Nat × Dbl))
    (hN : node_len < 2 ^ 31) (hne : spec ≠ [])
    (hid : ∀ ln ∈ spec, 1 ≤ ln.1 ∧ ln.1 ≤ node_len) (hnd : (spec.map Prod.fst).Nodup) :
    set_node_types junk spec node_len = some
      { boundary_nodes := spec.map (fun ln => ln.1 - 1)
        interior_nodes := (List.range node_len).filter
          (fun n => decide (n ∉ spec.map (fun ln => ln.1 - 1)))
        boundary_values := spec.map Prod.snd
        bnode_len := spec.length
        inode_len := node_len - spec.length }
      ∧ ((List.range node_len).filter
          (fun n => decide (n ∉ spec.map (fun ln => ln.1 - 1)))).length
        = node_len - spec.length := by
  have hB : spec.map (fun ln => size_sub ln.1 1) = spec.map (fun ln => ln.1 - 1) := by
    apply List.map_congr_left
    intro ln hln
    have := hid ln hln
    exact size_sub_of_le this.1 (by omega)
  have hBlt : ∀ b ∈ spec.map (fun ln => ln.1 - 1), b < node_len := by
    intro b hb
    obtain ⟨ln, hln, rfl⟩ := List.mem_map.mp hb
    have := hid ln hln
    omega
  have hBnd : (spec.map (fun ln => ln.1 - 1)).Nodup := by
    have h1 : spec.map (fun ln => ln.1 - 1) = (spec.map Prod.fst).map (fun i => i - 1) := by
      simp [List.map_map]
    rw [h1]
    apply List.Nodup.map_on _ hnd
    intro a ha b hb hab
    obtain ⟨la, hla, rfl⟩ := List.mem_map.mp ha
    obtain ⟨lb, hlb, rfl⟩ := List.mem_map.mp hb
    have := hid la hla
    have := hid lb hlb
    omega
  have hperm := List.perm_insertionSort (· ≤ ·) (spec.map (fun ln => ln.1 - 1))
  have hsorted := List.sorted_insertionSort (· ≤ ·) (spec.map (fun ln => ln.1 - 1))
  have hSnd : ((spec.map (fun ln => ln.1 - 1)).insertionSort (· ≤ ·)).Nodup :=
    hperm.nodup_iff.mpr hBnd
  have hSlt : ((spec.map (fun ln => ln.1 - 1)).insertionSort (· ≤ ·)).Pairwise (· < ·) :=
    (List.Pairwise.and hsorted hSnd).imp (fun h => lt_of_le_of_ne h.1 h.2)
  have hSlen : ((spec.map (fun ln => ln.1 - 1)).insertionSort (· ≤ ·)).length = spec.length := by
    rw [hperm.length_eq, List.length_map]
  have hlenN : spec.length ≤ node_len := by
    have hsub : spec.map (fun ln => ln.1 - 1) ⊆ List.range node_len := by
      intro b hb
      exact List.mem_range.mpr (hBlt b hb)
    have := (List.subperm_of_subset hBnd hsub).length_le
    simpa using this
  have hfilter : (List.range node_len).filter
        (fun n => decide (n ∉ (spec.map (fun ln => ln.1 - 1)).insertionSort (· ≤ ·)))
      = (List.range node_len).filter (fun n => decide (n ∉ spec.map (fun ln => ln.1 - 1))) := by
    apply List.filter_congr
    intro n _
    exact decide_eq_decide.mpr (not_congr hperm.mem_iff)
  generalize hS : (spec.map (fun ln => ln.1 - 1)).insertionSort (· ≤ ·) = S at *
  cases S with
  | nil =>
    have : spec.length = 0 := by simpa using hSlen.symm
    exact absurd (List.length_eq_zero.mp this) hne
  | cons s rest =>
    have hb : ∀ r ∈ s :: rest, r < node_len := fun r hr => hBlt r (hperm.mem_iff.mp hr)
    have hb0 : ∀ r ∈ s :: rest, 0 ≤ r ∧ r < node_len := fun r hr => ⟨Nat.zero_le r, hb r hr⟩
    have hrl : rest.length + 1 = spec.length := by simpa using hSlen
    obtain ⟨st, hst1, hst2⟩ := gap_walk_sorted node_len junk hN rest [] s 0
      (2 ^ 32 - (rest.length + 2)) [] hSlt hb (by simp; omega) (Nat.zero_le s)
    obtain ⟨a, b, c⟩ := st
    have hfuel : rest.length + 2 + (2 ^ 32 - (rest.length + 2)) = 2 ^ 32 := by omega
    have hg := gaps_eq_filter node_len (s :: rest) 0 hSlt hb0
    have hgl := length_gaps node_len (s :: rest) 0 hSlt hb0 (Nat.zero_le _)
    rw [Nat.sub_zero, List.range'_eq_map_range] at hg
    simp only [zero_add, List.map_id'] at hg
    rw [hfilter] at hg
    constructor
    · unfold set_node_types
      simp only [read_boundary_eq, hB, hS]
      rw [hfuel] at hst1
      simp only [List.append_nil, List.length_nil, zero_add, List.nil_append, List.length_cons,
        Nat.cast_one, Nat.cast_zero, List.getD_cons_zero] at hst1 hst2 ⊢
      rw [hrl] at hst1
      rw [size_to_int_of_lt (by have := hb s (List.mem_cons_self _ _); omega)]
      rw [hst1]
      simp only [hst2, hg]
      rw [size_sub_of_le hlenN (by omega)]
    · rw [← hg, hgl]
      simp only [List.length_cons, Nat.sub_zero]
      omega

theorem triangle_eq_updates (sf : shape_function) (i j k : Nat) (K : Nat → Dbl) (row_len : Nat) :
    sf.triangle i j k K row_len = apply_updates K (sf.updates i j k row_len) := rfl

theorem apply_updates_append (K : Nat → Dbl) (us vs : List (Nat × Dbl)) :
    apply_updates K (us ++ vs) = apply_updates (apply_updates K us) vs := by
  simp [apply_updates, List.foldl_append]

/-- After a list of statements `K[c] += v`, an entry holds its old value plus the values
added to it. -/
theorem apply_updates_apply (us : List (Nat × Dbl)) :
    ∀ (K : Nat → Dbl) (c : Nat),
      apply_updates K us c
        = K c + ((us.filter (fun u => decide (u.1 = c))).map Prod.snd).sum := by
  induction us with
  | nil =>
    intro K c
    simp [apply_updates]
  | cons u us ih =>
    intro K c
    have hstep : apply_updates K (u :: us)
        = apply_updates (shape_function.add_at K u.1 u.2) us := rfl
    rw [hstep, ih]
    by_cases h : u.1 = c
    · subst h
      simp [shape_function.add_at, add_assoc]
    · have h' : c ≠ u.1 := fun e => h e.symm
      simp [shape_function.add_at, h, Function.update_noteq h']

theorem apply_updates_perm {us vs : List (Nat × Dbl)} (h : us.Perm vs) (K : Nat → Dbl) :
    apply_updates K us = apply_updates K vs := by
  funext c
  rw [apply_updates_apply, apply_updates_apply]
  congr 1
  exact ((h.filter _).map _).sum_eq

theorem apply_updates_of_not_mem (K : Nat → Dbl) (us : List (Nat × Dbl)) (c : Nat)
    (h : c ∉ us.map Prod.fst) : apply_updates K us c = K c := by
  rw [apply_updates_apply]
  have : us.filter (fun u => decide (u.1 = c)) = [] := by
    rw [List.filter_eq_nil_iff]
    intro u hu
    simp only [decide_eq_true_eq]
    intro e
    exact h (List.mem_map.mpr ⟨u, hu, e⟩)
  simp [this]

theorem apply_updates_of_nodup (K : Nat → Dbl) :
    ∀ (us : List (Nat × Dbl)), (us.map Prod.fst).Nodup → ∀ u ∈ us,
      apply_updates K us u.1 = K u.1 + u.2 := by
  intro us hnd u hu
  rw [apply_updates_apply]
  have : us.filter (fun v => decide (v.1 = u.1)) = [u] := by
    induction us with
    | nil => cases hu
    | cons w us ih =>
      rw [List.map_cons, List.nodup_cons] at hnd
      rcases List.mem_cons.mp hu with rfl | hmem
      · have hrest : us.filter (fun v => decide (v.1 = u.1)) = [] := by
          rw [List.filter_eq_nil_iff]
          intro v hv
          simp only [decide_eq_true_eq]
          intro e
          exact hnd.1 (List.mem_map.mpr ⟨v, hv, e⟩)
        simp [List.filter_cons, hrest]
      · have hne : w.1 ≠ u.1 := by
          intro e
          exact hnd.1 (List.mem_map.mpr ⟨u, hmem, e.symm⟩)
        simp [List.filter_cons, hne, ih hnd.2 hmem]
  simp [this]

/-! ## The entries of the element stiffness matrix -/

theorem a_eq_spec (sf : shape_function) (i j k : Nat) :
    sf.a i j k = spec_a (sf.nodes i) (sf.nodes j) (sf.nodes k) := rfl

theorem b_eq_spec (sf : shape_function) (i j k : Nat) :
    sf.b i j k = spec_b (sf.nodes i) (sf.nodes j) (sf.nodes k) := rfl

theorem J_eq_spec (sf : shape_function) (i j k : Nat) :
    sf.J i j k = spec_J (sf.nodes i) (sf.nodes j) (sf.nodes k) := rfl

theorem entry_of_ne (sf : shape_function) (i j k : Nat)
    (hJ : spec_J (sf.nodes i) (sf.nodes j) (sf.nodes k) ≠ 0) (p q : Fin 3) :
    sf.entry i j k p q
      = Dbl.fin (spec_local (sf.nodes i) (sf.nodes j) (sf.nodes k) p q) := by
  unfold shape_function.entry spec_local
  rw [J_eq_spec, a_eq_spec, b_eq_spec, Dbl.divq_of_ne 1 (mul_ne_zero two_ne_zero hJ),
    Dbl.fin_mul_fin]

theorem entry_of_eq (sf : shape_function) (i j k : Nat)
    (hJ : spec_J (sf.nodes i) (sf.nodes j) (sf.nodes k) = 0) (p q : Fin 3) :
    sf.entry i j k p q = Dbl.nan := by
  unfold shape_function.entry
  rw [J_eq_spec, hJ, mul_zero, Dbl.divq_zero, Dbl.nan_mul]

theorem cell_inj {N a b a' b' : Nat} (hb : b < N) (hb' : b' < N)
    (h : a * N + b = a' * N + b') : a = a' ∧ b = b' := by
  rcases Nat.lt_trichotomy a a' with hlt | heq | hgt
  · have := Nat.mul_le_mul_right N (Nat.succ_le_of_lt hlt)
    rw [Nat.succ_mul] at this
    omega
  · subst heq
    exact ⟨rfl, by omega⟩
  · have := Nat.mul_le_mul_right N (Nat.succ_le_of_lt hgt)
    rw [Nat.succ_mul] at this
    omega

theorem ind_lt {N n0 n1 n2 : Nat} (h0 : n0 < N) (h1 : n1 < N) (h2 : n2 < N) (p : Fin 3) :
    shape_function.ind n0 n1 n2 p < N := by
  fin_cases p <;> simpa [shape_function.ind]

theorem ind_inj {n0 n1 n2 : Nat} (h01 : n0 ≠ n1) (h02 : n0 ≠ n2) (h12 : n1 ≠ n2)
    {p q : Fin 3} (h : shape_function.ind n0 n1 n2 p = shape_function.ind n0 n1 n2 q) :
    p = q := by
  fin_cases p <;> fin_cases q <;> simp_all [shape_function.ind]

theorem updates_cells_nodup (sf : shape_function) {N n0 n1 n2 : Nat}
    (h0 : n0 < N) (h1 : n1 < N) (h2 : n2 < N)
    (h01 : n0 ≠ n1) (h02 : n0 ≠ n2) (h12 : n1 ≠ n2) :
    ((sf.updates n0 n1 n2 N).map Prod.fst).Nodup := by
  unfold shape_function.updates
  rw [List.map_map]
  apply List.Nodup.map_on _ (by decide)
  intro pq _ pq' _ h
  obtain ⟨e1, e2⟩ := cell_inj (ind_lt h0 h1 h2 pq.2) (ind_lt h0 h1 h2 pq'.2) h
  exact Prod.ext (ind_inj h01 h02 h12 e1) (ind_inj h01 h02 h12 e2)

/-- The entry `(n_p, n_q)` after `triangle` on distinct nodes of a non-degenerate triangle. -/
theorem triangle_cell (sf : shape_function) (K : Nat → Dbl) {N n0 n1 n2 : Nat}
    (h0 : n0 < N) (h1 : n1 < N) (h2 : n2 < N)
    (h01 : n0 ≠ n1) (h02 : n0 ≠ n2) (h12 : n1 ≠ n2)
    (hJ : spec_J (sf.nodes n0) (sf.nodes n1) (sf.nodes n2) ≠ 0) (p q : Fin 3) :
    sf.triangle n0 n1 n2 K N
        (shape_function.ind n0 n1 n2 p * N + shape_function.ind n0 n1 n2 q)
      = K (shape_function.ind n0 n1 n2 p * N + shape_function.ind n0 n1 n2 q)
        + Dbl.fin (spec_local (sf.nodes n0) (sf.nodes n1) (sf.nodes n2) p q) := by
  have hmem : ((shape_function.ind n0 n1 n2 p * N + shape_function.ind n0 n1 n2 q,
      sf.entry n0 n1 n2 p q) : Nat × Dbl) ∈ sf.updates n0 n1 n2 N := by
    unfold shape_function.updates
    refine List.mem_map.mpr ⟨(p, q), ?_, rfl⟩
    fin_cases p <;> fin_cases q <;> decide
  have h := apply_updates_of_nodup K _ (updates_cells_nodup sf h0 h1 h2 h01 h02 h12) _ hmem
  rw [triangle_eq_updates]
  rw [entry_of_ne sf n0 n1 n2 hJ] at h
  exact h

/-! ## The loops of the reduction -/

theorem sum_below_succ (n : Nat) (g : Nat → Dbl) :
    sum_below (n + 1) g = sum_below n g + g n := by
  simp [sum_below, List.range_succ]

/-- The loop `sum -= t(j)` for `j < n` subtracts the sum of the terms. -/
theorem foldl_sub_eq (t : Nat → Dbl) (s0 : Dbl) (n : Nat) :
    (List.range n).foldl (fun sum j => sum - t j) s0 = s0 - sum_below n t := by
  induction n with
  | zero => simp [sum_below, Dbl.sub_zero_eq]
  | succ n ih =>
    rw [List.range_succ, List.foldl_append, ih, sum_below_succ]
    simp [Dbl.sub_sub_eq]

theorem set_rows (M : MatrixXd) (i j : Nat) (v : Dbl) : (M.set i j v).rows = M.rows := rfl

theorem set_data (M : MatrixXd) (i j : Nat) (v : Dbl) :
    (M.set i j v).data = Function.update M.data (i + j * M.rows) v := rfl

/-- The loop `Ku(i, j) = g(j)` for `j < m` keeps the dimensions, leaves the other
coefficients alone and sets row `i`. -/
theorem foldl_set_row (i : Nat) (g : Nat → Dbl) (M : MatrixXd) (m : Nat) :
    ((List.range m).foldl (fun Ku j => Ku.set i j (g j)) M).rows = M.rows
      ∧ (∀ c, (∀ j < m, c ≠ i + j * M.rows) →
          ((List.range m).foldl (fun Ku j => Ku.set i j (g j)) M).data c = M.data c)
      ∧ (0 < M.rows → ∀ j < m,
          ((List.range m).foldl (fun Ku j => Ku.set i j (g j)) M).data (i + j * M.rows) = g j) := by
  induction m with
  | zero => simp
  | succ m ih =>
    obtain ⟨ih1, ih2, ih3⟩ := ih
    rw [List.range_succ, List.foldl_append]
    simp only [List.foldl_cons, List.foldl_nil]
    refine ⟨?_, ?_, ?_⟩
    · rw [set_rows, ih1]
    · intro c hc
      rw [set_data, ih1]
      rw [Function.update_noteq (hc m (Nat.lt_succ_self m))]
      exact ih2 c (fun j hj => hc j (Nat.lt_succ_of_lt hj))
    · intro hpos j hj
      rw [set_data, ih1]
      rcases Nat.lt_succ_iff_lt_or_eq.mp hj with hlt | heq
      · have hne : i + j * M.rows ≠ i + m * M.rows := by
          intro e
          have e' : j * M.rows = m * M.rows := Nat.add_left_cancel e
          have := Nat.eq_of_mul_eq_mul_right hpos e'
          omega
        rw [Function.update_noteq hne]
        exact ih3 hpos j hlt
      · subst heq
        simp

/-- The state of the reduction loop after its first `n` passes. -/
theorem reduction_rows (K : MatrixXd) (f : Nat → Dbl) (nt : node_types) :
    ∀ n, n ≤ nt.inode_len →
      ((List.range n).foldl (reduction_row K f nt)
          (MatrixXd.Zero nt.inode_len nt.inode_len, fun _ => 0)).1.rows = nt.inode_len
        ∧ (∀ i < n, ∀ j < nt.inode_len,
            ((List.range n).foldl (reduction_row K f nt)
              (MatrixXd.Zero nt.inode_len nt.inode_len, fun _ => 0)).1.coeff i j
              = K.coeff (nt.interior_nodes.getD i 0) (nt.interior_nodes.getD j 0))
        ∧ (∀ i < n,
            ((List.range n).foldl (reduction_row K f nt)
              (MatrixXd.Zero nt.inode_len nt.inode_len, fun _ => 0)).2 i
              = f (nt.interior_nodes.getD i 0)
                - sum_below nt.bnode_len (fun j =>
                    K.coeff (nt.interior_nodes.getD i 0) (nt.boundary_nodes.getD j 0)
                      * nt.boundary_values.getD j 0)) := by
  intro n
  induction n with
  | zero =>
    intro _
    exact ⟨rfl, fun i hi => absurd hi (Nat.not_lt_zero i), fun i hi => absurd hi (Nat.not_lt_zero i)⟩
  | succ n ih =>
    intro hn
    obtain ⟨ih1, ih2, ih3⟩ := ih (Nat.le_of_succ_le hn)
    rw [List.range_succ, List.foldl_append]
    simp only [List.foldl_cons, List.foldl_nil]
    generalize (List.range n).foldl (reduction_row K f nt)
      (MatrixXd.Zero nt.inode_len nt.inode_len, fun _ => 0) = R at ih1 ih2 ih3
    obtain ⟨h1, h2, h3⟩ := foldl_set_row n
      (fun j => K.coeff (nt.interior_nodes.getD n 0) (nt.interior_nodes.getD j 0)) R.1 nt.inode_len
    have hpos : 0 < R.1.rows := by rw [ih1]; omega
    refine ⟨?_, ?_, ?_⟩
    · show ((List.range nt.inode_len).foldl _ R.1).rows = _
      rw [h1, ih1]
    · intro i hi j hj
      show ((List.range nt.inode_len).foldl _ R.1).data (i + j * ((List.range nt.inode_len).foldl _ R.1).rows) = _
      rw [h1]
      rcases Nat.lt_succ_iff_lt_or_eq.mp hi with hlt | heq
      · rw [h2]
        · exact ih2 i hlt j hj
        · intro j' _ e
          rw [ih1, Nat.add_comm i, Nat.add_comm n] at e
          have := (cell_inj (by omega) (by omega) e).2
          omega
      · subst heq
        exact h3 hpos j hj
    · intro i hi
      show Function.update R.2 n _ i = _
      rcases Nat.lt_succ_iff_lt_or_eq.mp hi with hlt | heq
      · rw [Function.update_noteq (by omega)]
        exact ih3 i hlt
      · subst heq
        rw [Function.update_same, foldl_sub_eq]

/-- What the reduction loop has produced when it ends. -/
theorem reduction_spec (K : MatrixXd) (f : Nat → Dbl) (nt : node_types) :
    (reduction K f nt).1.rows = nt.inode_len
      ∧ (∀ i j, i < nt.inode_len → j < nt.inode_len →
          (reduction K f nt).1.coeff i j
            = K.coeff (nt.interior_nodes.getD i 0) (nt.interior_nodes.getD j 0))
      ∧ (∀ i, i < nt.inode_len →
          (reduction K f nt).2 i
            = f (nt.interior_nodes.getD i 0)
              - sum_below nt.bnode_len (fun j =>
                  K.coeff (nt.interior_nodes.getD i 0) (nt.boundary_nodes.getD j 0)
                    * nt.boundary_values.getD j 0)) := by
  obtain ⟨h1, h2, h3⟩ := reduction_rows K f nt nt.inode_len (Nat.le_refl _)
  exact ⟨h1, fun i j hi hj => h2 i hi j hj, h3⟩

/-! ## The loops of the back-substitution -/

theorem map_getD_range {α : Type} (l : List α) (d : α) :
    (List.range l.length).map (fun i => l.getD i d) = l := by
  apply List.ext_getElem
  · simp
  · intro i h1 h2
    simp [List.getD_eq_getElem?_getD, List.getElem?_eq_getElem h2]

theorem back_substitute_eq_trace (nt : node_types) (u_unknowns u : Nat → Dbl) :
    back_substitute nt u_unknowns u
      = (back_substitute_trace nt u_unknowns).foldl (fun u w => Function.update u w.1 w.2) u := by
  simp [back_substitute, back_substitute_trace, List.foldl_append, List.foldl_map]

theorem foldl_update_of_not_mem (ws : List (Nat × Dbl)) :
    ∀ (u : Nat → Dbl) (c : Nat), c ∉ ws.map Prod.fst →
      ws.foldl (fun u w => Function.update u w.1 w.2) u c = u c := by
  induction ws with
  | nil => intro u c _; rfl
  | cons w ws ih =>
    intro u c hc
    rw [List.map_cons, List.mem_cons, not_or] at hc
    rw [List.foldl_cons, ih _ c hc.2, Function.update_noteq hc.1]

theorem foldl_update_of_nodup (ws : List (Nat × Dbl)) :
    ∀ (u : Nat → Dbl), (ws.map Prod.fst).Nodup → ∀ w ∈ ws,
      ws.foldl (fun u w => Function.update u w.1 w.2) u w.1 = w.2 := by
  induction ws with
  | nil => intro u _ w hw; cases hw
  | cons v ws ih =>
    intro u hnd w hw
    rw [List.map_cons, List.nodup_cons] at hnd
    rw [List.foldl_cons]
    rcases List.mem_cons.mp hw with rfl | hmem
    · rw [foldl_update_of_not_mem ws _ _ hnd.1, Function.update_same]
    · exact ih _ hnd.2 w hmem

theorem trace_indices (nt : node_types) (N : Nat) (hp : nt.partitions N)
    (u_unknowns : Nat → Dbl) :
    (back_substitute_trace nt u_unknowns).map Prod.fst
      = nt.boundary_nodes ++ nt.interior_nodes := by
  obtain ⟨hb, _, hi, _⟩ := hp
  unfold back_substitute_trace
  rw [List.map_append, List.map_map, List.map_map, hb, hi]
  exact congrArg₂ _ (map_getD_range nt.boundary_nodes 0) (map_getD_range nt.interior_nodes 0)

theorem back_substitute_value (nt : node_types) (N : Nat) (hp : nt.partitions N)
    (u_unknowns : Nat → Dbl) :
    ∀ w ∈ back_substitute_trace nt u_unknowns, ∀ u : Nat → Dbl,
      back_substitute nt u_unknowns u w.1 = w.2 := by
  intro w hw u
  have hnd : ((back_substitute_trace nt u_unknowns).map Prod.fst).Nodup := by
    rw [trace_indices nt N hp u_unknowns]
    exact hp.2.2.2.nodup_iff.mpr (List.nodup_range N)
  rw [back_substitute_eq_trace]
  exact foldl_update_of_nodup _ u hnd w hw

theorem back_substitute_boundary (nt : node_types) (N : Nat) (hp : nt.partitions N)
    (u_unknowns u : Nat → Dbl) (i : Nat) (hi : i < nt.bnode_len) :
    back_substitute nt u_unknowns u (nt.boundary_nodes.getD i 0)
      = nt.boundary_values.getD i 0 := by
  apply back_substitute_value nt N hp u_unknowns
    (nt.boundary_nodes.getD i 0, nt.boundary_values.getD i 0)
  unfold back_substitute_trace
  exact List.mem_append_left _ (List.mem_map.mpr ⟨i, List.mem_range.mpr hi, rfl⟩)

theorem back_substitute_interior (nt : node_types) (N : Nat) (hp : nt.partitions N)
    (u_unknowns u : Nat → Dbl) (i : Nat) (hi : i < nt.inode_len) :
    back_substitute nt u_unknowns u (nt.interior_nodes.getD i 0) = u_unknowns i := by
  apply back_substitute_value nt N hp u_unknowns (nt.interior_nodes.getD i 0, u_unknowns i)
  unfold back_substitute_trace
  exact List.mem_append_right _ (List.mem_map.mpr ⟨i, List.mem_range.mpr hi, rfl⟩)

/-! ## Sums over a partition of the node indices -/

theorem sum_below_split (nt : node_types) (N : Nat) (hp : nt.partitions N) (g : Nat → Dbl) :
    sum_below N g
      = sum_below nt.bnode_len (fun j => g (nt.boundary_nodes.getD j 0))
        + sum_below nt.inode_len (fun j => g (nt.interior_nodes.getD j 0)) := by
  obtain ⟨hb, _, hi, hperm⟩ := hp
  have h1 : sum_below N g
      = (nt.boundary_nodes.map g).sum + (nt.interior_nodes.map g).sum := by
    unfold sum_below
    rw [← (hperm.map g).sum_eq, List.map_append, List.sum_append]
  have h2 : sum_below nt.bnode_len (fun j => g (nt.boundary_nodes.getD j 0))
      = (nt.boundary_nodes.map g).sum := by
    unfold sum_below
    rw [hb]
    conv_rhs => rw [← map_getD_range nt.boundary_nodes 0, List.map_map]
    rfl
  have h3 : sum_below nt.inode_len (fun j => g (nt.interior_nodes.getD j 0))
      = (nt.interior_nodes.map g).sum := by
    unfold sum_below
    rw [hi]
    conv_rhs => rw [← map_getD_range nt.interior_nodes 0, List.map_map]
    rfl
  rw [h1, h2, h3]

theorem sum_below_congr {n : Nat} {g h : Nat → Dbl} (e : ∀ j, j < n → g j = h j) :
    sum_below n g = sum_below n h := by
  unfold sum_below
  congr 1
  apply List.map_congr_left
  intro j hj
  exact e j (List.mem_range.mp hj)

theorem isFinite_sum_below {n : Nat} {g : Nat → Dbl} (h : ∀ j, j < n → (g j).isFinite = true) :
    (sum_below n g).isFinite = true := by
  unfold sum_below
  apply Dbl.isFinite_sum
  intro a ha
  obtain ⟨j, hj, rfl⟩ := List.mem_map.mp ha
  exact h j (List.mem_range.mp hj)

theorem isFinite_getD (l : List Dbl) (h : ∀ v ∈ l, v.isFinite = true) (j : Nat) :
    (l.getD j 0).isFinite = true := by
  rw [List.getD_eq_getElem?_getD]
  cases hj : l[j]? with
  | none => rfl
  | some v => exact h v (List.getElem?_mem hj)

theorem foldl_assemble_eq (nodes : Nat → point) (node_len : Nat) (node_types : node_types) :
    ∀ (es : List element) (K : Nat → Dbl),
      assemble ⟨nodes, es, node_len, node_types⟩ K
        = apply_updates K
            (es.flatMap (element_updates ⟨nodes, [], node_len, node_types⟩)) := by
  intro es
  induction es with
  | nil => intro K; rfl
  | cons el es ih =>
    intro K
    have hstep : assemble ⟨nodes, el :: es, node_len, node_types⟩ K
        = assemble ⟨nodes, es, node_len, node_types⟩
            (apply_updates K (element_updates ⟨nodes, [], node_len, node_types⟩ el)) := by
      unfold assemble element_updates
      simp only [List.foldl_cons]
      by_cases h : el.type = TRIANGLE_ID
      · simp only [if_pos h, triangle_eq_updates]
      · simp only [if_neg h]
        rfl
    rw [hstep, ih, List.flatMap_cons, apply_updates_append]

theorem assemble_eq_updates (m : msh) (K : Nat → Dbl) :
    assemble m K = apply_updates K (m.elements.flatMap (element_updates m)) :=
  foldl_assemble_eq m.nodes m.node_len m.node_types m.elements K

/-! ## Reordering the vertices of a triangle -/

theorem J_swap01 (sf : shape_function) (i j k : Nat) : sf.J j i k = sf.J i j k := by
  unfold shape_function.J shape_function.a shape_function.b shape_function.x shape_function.y
  simp only [Matrix.cons_val_zero, Matrix.cons_val_one, Matrix.cons_val_two, Matrix.head_cons,
    Matrix.tail_cons]
  rw [← abs_neg]
  congr 1
  ring

theorem J_swap12 (sf : shape_function) (i j k : Nat) : sf.J i k j = sf.J i j k := by
  unfold shape_function.J shape_function.a shape_function.b shape_function.x shape_function.y
  simp only [Matrix.cons_val_zero, Matrix.cons_val_one, Matrix.cons_val_two, Matrix.head_cons,
    Matrix.tail_cons]
  rw [← abs_neg]
  congr 1
  ring

theorem entry_swap01 (sf : shape_function) (i j k : Nat) (p q : Fin 3) :
    sf.entry j i k p q = sf.entry i j k (swap01 p) (swap01 q) := by
  unfold shape_function.entry
  rw [J_swap01]
  congr 2
  fin_cases p <;> fin_cases q <;>
    simp [shape_function.a, shape_function.b, shape_function.x, shape_function.y, swap01] <;>
    ring

theorem entry_swap12 (sf : shape_function) (i j k : Nat) (p q : Fin 3) :
    sf.entry i k j p q = sf.entry i j k (swap12 p) (swap12 q) := by
  unfold shape_function.entry
  rw [J_swap12]
  congr 2
  fin_cases p <;> fin_cases q <;>
    simp [shape_function.a, shape_function.b, shape_function.x, shape_function.y, swap12] <;>
    ring

theorem updates_swap01 (sf : shape_function) (i j k N : Nat) :
    (sf.updates j i k N).Perm (sf.updates i j k N) := by
  have h : sf.updates j i k N
      = (loop_pairs.map (Prod.map swap01 swap01)).map (fun pq =>
          (shape_function.ind i j k pq.1 * N + shape_function.ind i j k pq.2,
            sf.entry i j k pq.1 pq.2)) := by
    unfold shape_function.updates
    rw [List.map_map]
    apply List.map_congr_left
    intro pq _
    have hind : ∀ p : Fin 3, shape_function.ind j i k p = shape_function.ind i j k (swap01 p) := by
      intro p
      fin_cases p <;> rfl
    show (shape_function.ind j i k pq.1 * N + shape_function.ind j i k pq.2,
        sf.entry j i k pq.1 pq.2)
      = (shape_function.ind i j k (swap01 pq.1) * N + shape_function.ind i j k (swap01 pq.2),
        sf.entry i j k (swap01 pq.1) (swap01 pq.2))
    rw [hind, hind, entry_swap01 sf i j k]
  rw [h]
  exact List.Perm.map _ (by decide)

theorem updates_swap12 (sf : shape_function) (i j k N : Nat) :
    (sf.updates i k j N).Perm (sf.updates i j k N) := by
  have h : sf.updates i k j N
      = (loop_pairs.map (Prod.map swap12 swap12)).map (fun pq =>
          (shape_function.ind i j k pq.1 * N + shape_function.ind i j k pq.2,
            sf.entry i j k pq.1 pq.2)) := by
    unfold shape_function.updates
    rw [List.map_map]
    apply List.map_congr_left
    intro pq _
    have hind : ∀ p : Fin 3, shape_function.ind i k j p = shape_function.ind i j k (swap12 p) := by
      intro p
      fin_cases p <;> rfl
    show (shape_function.ind i k j pq.1 * N + shape_function.ind i k j pq.2,
        sf.entry i k j pq.1 pq.2)
      = (shape_function.ind i j k (swap12 pq.1) * N + shape_function.ind i j k (swap12 pq.2),
        sf.entry i j k (swap12 pq.1) (swap12 pq.2))
    rw [hind, hind, entry_swap12 sf i j k]
  rw [h]
  exact List.Perm.map _ (by decide)

theorem triangle_swap01 (sf : shape_function) (i j k : Nat) (K : Nat → Dbl) (N : Nat) :
    sf.triangle j i k K N = sf.triangle i j k K N := by
  rw [triangle_eq_updates, triangle_eq_updates]
  exact apply_updates_perm (updates_swap01 sf i j k N) K

theorem triangle_swap12 (sf : shape_function) (i j k : Nat) (K : Nat → Dbl) (N : Nat) :
    sf.triangle i k j K N = sf.triangle i j k K N := by
  rw [triangle_eq_updates, triangle_eq_updates]
  exact apply_updates_perm (updates_swap12 sf i j k N) K

theorem perm_pair {a b c d : Nat} (h : [a, b].Perm [c, d]) :
    (a = c ∧ b = d) ∨ (a = d ∧ b = c) := by
  have ha : a ∈ [c, d] := h.subset (List.mem_cons_self _ _)
  simp only [List.mem_cons, List.mem_singleton, List.not_mem_nil, or_false] at ha
  rcases ha with rfl | rfl
  · have := List.perm_singleton.mp h.cons_inv
    simp only [List.cons.injEq, and_true] at this
    exact Or.inl ⟨rfl, this⟩
  · have h' : [a, b].Perm [a, c] := h.trans (List.Perm.swap _ _ _)
    have := List.perm_singleton.mp h'.cons_inv
    simp only [List.cons.injEq, and_true] at this
    exact Or.inr ⟨rfl, this⟩

theorem perm_triple {a b c x y z : Nat} (h : [a, b, c].Perm [x, y, z]) :
    (a = x ∧ b = y ∧ c = z) ∨ (a = x ∧ b = z ∧ c = y) ∨ (a = y ∧ b = x ∧ c = z)
      ∨ (a = y ∧ b = z ∧ c = x) ∨ (a = z ∧ b = x ∧ c = y) ∨ (a = z ∧ b = y ∧ c = x) := by
  have ha : a ∈ [x, y, z] := h.subset (List.mem_cons_self _ _)
  simp only [List.mem_cons, List.mem_singleton, List.not_mem_nil, or_false] at ha
  rcases ha with rfl | rfl | rfl
  · rcases perm_pair h.cons_inv with ⟨rfl, rfl⟩ | ⟨rfl, rfl⟩
    · exact Or.inl ⟨rfl, rfl, rfl⟩
    · exact Or.inr (Or.inl ⟨rfl, rfl, rfl⟩)
  · have h' : [a, b, c].Perm [a, x, z] := h.trans (List.Perm.swap _ _ _)
    rcases perm_pair h'.cons_inv with ⟨rfl, rfl⟩ | ⟨rfl, rfl⟩
    · exact Or.inr (Or.inr (Or.inl ⟨rfl, rfl, rfl⟩))
    · exact Or.inr (Or.inr (Or.inr (Or.inl ⟨rfl, rfl, rfl⟩)))
  · have h' : [a, b, c].Perm [a, x, y] :=
      h.trans ((List.Perm.cons x (List.Perm.swap _ _ _)).trans (List.Perm.swap _ _ _))
    rcases perm_pair h'.cons_inv with ⟨rfl, rfl⟩ | ⟨rfl, rfl⟩
    · exact Or.inr (Or.inr (Or.inr (Or.inr (Or.inl ⟨rfl, rfl, rfl⟩))))
    · exact Or.inr (Or.inr (Or.inr (Or.inr (Or.inr ⟨rfl, rfl, rfl⟩))))

theorem triangle_perm (sf : shape_function) (K : Nat → Dbl) (N : Nat) {i j k i' j' k' : Nat}
    (h : [i', j', k'].Perm [i, j, k]) :
    sf.triangle i' j' k' K N = sf.triangle i j k K N := by
  rcases perm_triple h with c | c | c | c | c | c
  · obtain ⟨rfl, rfl, rfl⟩ := c
    rfl
  · obtain ⟨rfl, rfl, rfl⟩ := c
    exact triangle_swap12 sf _ _ _ K N
  · obtain ⟨rfl, rfl, rfl⟩ := c
    exact triangle_swap01 sf _ _ _ K N
  · obtain ⟨rfl, rfl, rfl⟩ := c
    rw [triangle_swap12, triangle_swap01]
  · obtain ⟨rfl, rfl, rfl⟩ := c
    rw [triangle_swap01, triangle_swap12]
  · obtain ⟨rfl, rfl, rfl⟩ := c
    rw [triangle_swap12, triangle_swap01, triangle_swap12]

/-! ## The mesh of a single triangle -/

theorem load_vector_spec (c : Dbl) (f : Nat → Dbl) :
    ∀ n, load_vector n f (some c) = (fun i => if i < n then c else f i, some c) := by
  intro n
  unfold load_vector
  induction n with
  | zero => simp
  | succ n ih =>
    rw [List.range_succ, List.foldl_append, ih]
    simp only [List.foldl_cons, List.foldl_nil, inh.constant]
    congr 1
    funext i
    by_cases h : i = n
    · subst h
      simp
    · rw [Function.update_noteq h]
      by_cases h' : i < n
      · simp [h', Nat.lt_succ_of_lt h']
      · have : ¬ i < n + 1 := by omega
        simp [h', this]

theorem single_triangle_cells (P0 P1 P2 : point) (hJ : spec_J P0 P1 P2 ≠ 0)
    (e0 e1 e2 : Nat) (he : [e0, e1, e2].Perm [0, 1, 2]) (nt : node_types) (p q : Fin 3) :
    assemble (single_triangle P0 P1 P2 e0 e1 e2 nt) (fun _ => 0) (p.val * 3 + q.val)
      = Dbl.fin (spec_local P0 P1 P2 p q) := by
  have h1 : assemble (single_triangle P0 P1 P2 e0 e1 e2 nt) (fun _ => 0)
      = shape_function.triangle ⟨three_nodes P0 P1 P2⟩ e0 e1 e2 (fun _ => 0) 3 := rfl
  rw [h1, triangle_perm _ _ _ he]
  have h2 := @triangle_cell ⟨three_nodes P0 P1 P2⟩ (fun _ => 0) 3 0 1 2
    (by decide) (by decide) (by decide) (by decide) (by decide) (by decide) hJ p q
  have hp : shape_function.ind 0 1 2 p = p.val := by fin_cases p <;> rfl
  have hq : shape_function.ind 0 1 2 q = q.val := by fin_cases q <;> rfl
  rw [hp, hq] at h2
  rw [h2]
  exact zero_add _

/-- The reduced system of the mesh of one triangle with the interior node `i` and the
boundary nodes `b1`, `b2` prescribed `q1`, `q2`. -/
theorem single_triangle_system (P0 P1 P2 : point) (hJ : spec_J P0 P1 P2 ≠ 0)
    (e0 e1 e2 : Nat) (he : [e0, e1, e2].Perm [0, 1, 2]) (i b1 b2 : Fin 3) (q1 q2 : ℚ) :
    (reduced_system (single_triangle P0 P1 P2 e0 e1 e2
        ⟨[b1.val, b2.val], [i.val], [Dbl.fin q1, Dbl.fin q2], 2, 1⟩)).1.coeff 0 0
        = Dbl.fin (spec_local P0 P1 P2 i i)
      ∧ (reduced_system (single_triangle P0 P1 P2 e0 e1 e2
        ⟨[b1.val, b2.val], [i.val], [Dbl.fin q1, Dbl.fin q2], 2, 1⟩)).2 0
        = Dbl.fin (0 - (spec_local P0 P1 P2 b1 i * q1 + spec_local P0 P1 P2 b2 i * q2)) := by
  have hcell : ∀ r c : Fin 3,
      MatrixXd.coeff
        { MatrixXd.Zero 3 3 with
          data := assemble (single_triangle P0 P1 P2 e0 e1 e2
            ⟨[b1.val, b2.val], [i.val], [Dbl.fin q1, Dbl.fin q2], 2, 1⟩) (MatrixXd.Zero 3 3).data }
        r.val c.val = Dbl.fin (spec_local P0 P1 P2 c r) := by
    intro r c
    show assemble _ (fun _ => 0) (r.val + c.val * 3) = _
    rw [Nat.add_comm]
    exact single_triangle_cells P0 P1 P2 hJ e0 e1 e2 he _ c r
  have hf : (load_vector 3 (fun _ => (0 : Dbl)) (inh.constant 0 none).2).1 = fun _ => 0 := by
    rw [show (inh.constant 0 none).2 = some 0 from rfl, load_vector_spec]
    funext n
    simp
  obtain ⟨_, h2, h3⟩ := reduction_spec
    { MatrixXd.Zero 3 3 with
      data := assemble (single_triangle P0 P1 P2 e0 e1 e2
        ⟨[b1.val, b2.val], [i.val], [Dbl.fin q1, Dbl.fin q2], 2, 1⟩) (MatrixXd.Zero 3 3).data }
    (load_vector 3 (fun _ => (0 : Dbl)) (inh.constant 0 none).2).1
    ⟨[b1.val, b2.val], [i.val], [Dbl.fin q1, Dbl.fin q2], 2, 1⟩
  constructor
  · exact (h2 0 0 Nat.zero_lt_one Nat.zero_lt_one).trans (hcell i i)
  · refine (h3 0 Nat.zero_lt_one).trans ?_
    rw [hf]
    simp only [sum_below, List.range_succ, List.range_zero, List.nil_append, List.map_cons,
      List.map_nil, List.map_append, List.sum_append, List.sum_cons, List.sum_nil, add_zero,
      zero_add, List.getD_cons_zero, List.getD_cons_succ]
    rw [hcell i b1, hcell i b2]
    simp only [Dbl.fin_mul_fin, Dbl.fin_add_fin]
    rfl

theorem classify_single_triangle (junk : Nat) (i b1 b2 : Fin 3)
    (hi1 : i ≠ b1) (hi2 : i ≠ b2) (hb : b1 ≠ b2) (v1 v2 : Dbl) :
    set_node_types junk [(b1.val + 1, v1), (b2.val + 1, v2)] 3
      = some ⟨[b1.val, b2.val], [i.val], [v1, v2], 2, 1⟩ := by
  have h := (set_node_types_valid junk 3 [(b1.val + 1, v1), (b2.val + 1, v2)] (by norm_num)
    (by simp) (by
      intro ln hln
      simp only [List.mem_cons, List.mem_singleton, List.not_mem_nil, or_false] at hln
      rcases hln with rfl | rfl
      · exact ⟨by simp, by simp; omega⟩
      · exact ⟨by simp, by simp; omega⟩) (by
      simp only [List.map_cons, List.map_nil, List.nodup_cons, List.mem_singleton,
        List.not_mem_nil, not_false_eq_true, List.nodup_nil, and_true]
      intro e
      exact hb (Fin.ext (by omega)))).1
  rw [h]
  have hfilter : (List.range 3).filter
      (fun n => decide (n ∉ List.map (fun ln : Nat × Dbl => ln.1 - 1)
        [(b1.val + 1, v1), (b2.val + 1, v2)])) = [i.val] := by
    simp only [List.map_cons, List.map_nil, Nat.add_sub_cancel]
    fin_cases i <;> fin_cases b1 <;> fin_cases b2 <;>
      first
      | exact absurd rfl hi1
      | exact absurd rfl hi2
      | exact absurd rfl hb
      | decide
  rw [hfilter]
  rfl

/-! ## The geometry behind the entries of the element stiffness matrix -/

theorem spec_J_pos {P0 P1 P2 : point} (hJ : spec_J P0 P1 P2 ≠ 0) : 0 < spec_J P0 P1 P2 :=
  lt_of_le_of_ne (abs_nonneg _) (Ne.symm hJ)

theorem sq_pos_of_det_ne {a1 b1 a2 b2 : ℚ} (h : a1 * b2 - a2 * b1 ≠ 0) :
    0 < a1 * a1 + b1 * b1 ∧ 0 < a2 * a2 + b2 * b2
      ∧ 0 < (a1 + a2) * (a1 + a2) + (b1 + b2) * (b1 + b2) := by
  refine ⟨?_, ?_, ?_⟩
  · by_contra hn
    have ha : a1 = 0 := by nlinarith [mul_self_nonneg a1, mul_self_nonneg b1]
    have hb : b1 = 0 := by nlinarith [mul_self_nonneg a1, mul_self_nonneg b1]
    exact h (by rw [ha, hb]; ring)
  · by_contra hn
    have ha : a2 = 0 := by nlinarith [mul_self_nonneg a2, mul_self_nonneg b2]
    have hb : b2 = 0 := by nlinarith [mul_self_nonneg a2, mul_self_nonneg b2]
    exact h (by rw [ha, hb]; ring)
  · by_contra hn
    have ha : a1 + a2 = 0 := by
      nlinarith [mul_self_nonneg (a1 + a2), mul_self_nonneg (b1 + b2)]
    have hb : b1 + b2 = 0 := by
      nlinarith [mul_self_nonneg (a1 + a2), mul_self_nonneg (b1 + b2)]
    have ha' : a1 = -a2 := by linarith
    have hb' : b1 = -b2 := by linarith
    exact h (by rw [ha', hb']; ring)

/-- The diagonal entries of the local stiffness matrix of a non-degenerate triangle are
positive. -/
theorem spec_local_diag_pos {P0 P1 P2 : point} (hJ : spec_J P0 P1 P2 ≠ 0) (p : Fin 3) :
    0 < spec_local P0 P1 P2 p p := by
  have hD : spec_a P0 P1 P2 1 * spec_b P0 P1 P2 2 - spec_a P0 P1 P2 2 * spec_b P0 P1 P2 1 ≠ 0 := by
    intro e
    apply hJ
    unfold spec_J
    rw [e, abs_zero]
  obtain ⟨h1, h2, h0⟩ := sq_pos_of_det_ne hD
  have hc : 0 < 1 / (2 * spec_J P0 P1 P2) := by
    have := spec_J_pos hJ
    positivity
  unfold spec_local
  apply mul_pos hc
  fin_cases p
  · have e : spec_a P0 P1 P2 0 * spec_a P0 P1 P2 0 + spec_b P0 P1 P2 0 * spec_b P0 P1 P2 0
        = (spec_a P0 P1 P2 1 + spec_a P0 P1 P2 2) * (spec_a P0 P1 P2 1 + spec_a P0 P1 P2 2)
          + (spec_b P0 P1 P2 1 + spec_b P0 P1 P2 2) * (spec_b P0 P1 P2 1 + spec_b P0 P1 P2 2) := by
      simp [spec_a, spec_b]
      ring
    exact e ▸ h0
  · exact h1
  · exact h2

/-- Every column of the local stiffness matrix sums to zero. -/
theorem spec_local_col_sum (P0 P1 P2 : point) {i b1 b2 : Fin 3}
    (hi1 : i ≠ b1) (hi2 : i ≠ b2) (hb : b1 ≠ b2) :
    spec_local P0 P1 P2 i i + spec_local P0 P1 P2 b1 i + spec_local P0 P1 P2 b2 i = 0 := by
  fin_cases i <;> fin_cases b1 <;> fin_cases b2 <;>
    first
    | exact absurd rfl hi1
    | exact absurd rfl hi2
    | exact absurd rfl hb
    | (simp [spec_local, spec_a, spec_b]; ring)

/-- The entry that couples the interior node `i` with the boundary node `b2` is, up to the
positive factor `1 / (2 J)`, the negative of the scalar product of the edges at the other
boundary node `b1`. -/
theorem spec_local_eq_dot (P0 P1 P2 : point) {i b1 b2 : Fin 3}
    (hi1 : i ≠ b1) (hi2 : i ≠ b2) (hb : b1 ≠ b2) :
    spec_local P0 P1 P2 b2 i
      = -(1 / (2 * spec_J P0 P1 P2)
          * dot_at (![P0, P1, P2] b1) (![P0, P1, P2] i) (![P0, P1, P2] b2)) := by
  fin_cases i <;> fin_cases b1 <;> fin_cases b2 <;>
    first
    | exact absurd rfl hi1
    | exact absurd rfl hi2
    | exact absurd rfl hb
    | (simp [spec_local, spec_a, spec_b, dot_at]; ring)

/-- The solution of `A u = -(D1 * 10 + D2 * 20)` when `A > 0` and `A + D1 + D2 = 0`. -/
theorem weighted_between {A D1 D2 u : ℚ} (hA : 0 < A) (hsum : A + D1 + D2 = 0)
    (hu : A * u = 0 - (D1 * 10 + D2 * 20)) :
    (10 < u ↔ D2 < 0) ∧ (u < 20 ↔ D1 < 0) := by
  have h1 : A * (u - 10) = -10 * D2 := by linear_combination hu - 10 * hsum
  have h2 : A * (20 - u) = -10 * D1 := by linear_combination 20 * hsum - hu
  constructor
  · constructor
    · intro h
      have : 0 < A * (u - 10) := mul_pos hA (by linarith)
      linarith
    · intro h
      have : 0 < A * (u - 10) := by linarith
      have := (mul_pos_iff_of_pos_left hA).mp this
      linarith
  · constructor
    · intro h
      have : 0 < A * (20 - u) := mul_pos hA (by linarith)
      linarith
    · intro h
      have : 0 < A * (20 - u) := by linarith
      have := (mul_pos_iff_of_pos_left hA).mp this
      linarith

/-- The mesh of one non-degenerate triangle, boundary nodes `b1`, `b2` prescribed 10 and 20,
source 0: the classification, the solution of the reduced system, and where it lies. -/
theorem single_triangle_solution (junk : Nat) (P0 P1 P2 : point) (hJ : spec_J P0 P1 P2 ≠ 0)
    (e0 e1 e2 : Nat) (he : [e0, e1, e2].Perm [0, 1, 2]) (i b1 b2 : Fin 3)
    (hi1 : i ≠ b1) (hi2 : i ≠ b2) (hb : b1 ≠ b2) :
    ∃ nt, set_node_types junk [(b1.val + 1, Dbl.fin 10), (b2.val + 1, Dbl.fin 20)] 3 = some nt
      ∧ nt.boundary_nodes = [b1.val, b2.val] ∧ nt.interior_nodes = [i.val]
      ∧ ∃ u : ℚ,
          (reduced_system (single_triangle P0 P1 P2 e0 e1 e2 nt)).1.coeff 0 0 * Dbl.fin u
              = (reduced_system (single_triangle P0 P1 P2 e0 e1 e2 nt)).2 0
            ∧ (∀ u' : ℚ,
                (reduced_system (single_triangle P0 P1 P2 e0 e1 e2 nt)).1.coeff 0 0 * Dbl.fin u'
                  = (reduced_system (single_triangle P0 P1 P2 e0 e1 e2 nt)).2 0 → u' = u)
            ∧ ((10 < u ∧ u < 20) ↔
                (0 < dot_at (![P0, P1, P2] b1) (![P0, P1, P2] i) (![P0, P1, P2] b2)
                  ∧ 0 < dot_at (![P0, P1, P2] b2) (![P0, P1, P2] i) (![P0, P1, P2] b1))) := by
  refine ⟨_, classify_single_triangle junk i b1 b2 hi1 hi2 hb _ _, rfl, rfl, ?_⟩
  obtain ⟨hK, hf⟩ := single_triangle_system P0 P1 P2 hJ e0 e1 e2 he i b1 b2 10 20
  have hA := spec_local_diag_pos hJ i
  have hsum := spec_local_col_sum P0 P1 P2 hi1 hi2 hb
  have hc : 0 < 1 / (2 * spec_J P0 P1 P2) := by
    have := spec_J_pos hJ
    positivity
  have hu : spec_local P0 P1 P2 i i
      * ((0 - (spec_local P0 P1 P2 b1 i * 10 + spec_local P0 P1 P2 b2 i * 20))
          / spec_local P0 P1 P2 i i)
      = 0 - (spec_local P0 P1 P2 b1 i * 10 + spec_local P0 P1 P2 b2 i * 20) :=
    mul_div_cancel₀ _ (ne_of_gt hA)
  refine ⟨(0 - (spec_local P0 P1 P2 b1 i * 10 + spec_local P0 P1 P2 b2 i * 20))
    / spec_local P0 P1 P2 i i, ?_, ?_, ?_⟩
  · rw [hK, hf, Dbl.fin_mul_fin, hu]
  · intro u' h
    rw [hK, hf, Dbl.fin_mul_fin] at h
    have h' := Dbl.fin_injective h
    exact mul_left_cancel₀ (ne_of_gt hA) (h'.trans hu.symm)
  · obtain ⟨w1, w2⟩ := weighted_between hA hsum hu
    rw [w1, w2, spec_local_eq_dot P0 P1 P2 hi1 hi2 hb,
      spec_local_eq_dot P0 P1 P2 hi2 hi1 (Ne.symm hb)]
    constructor
    · rintro ⟨h1, h2⟩
      constructor
      · by_contra hn
        have := mul_nonpos_of_nonneg_of_nonpos (le_of_lt hc) (not_lt.mp hn)
        linarith
      · by_contra hn
        have := mul_nonpos_of_nonneg_of_nonpos (le_of_lt hc) (not_lt.mp hn)
        linarith
    · rintro ⟨h1, h2⟩
      exact ⟨by have := mul_pos hc h1; linarith, by have := mul_pos hc h2; linarith⟩


/-! ## The stiffness matrix of the mesh of a single triangle -/

theorem reduced_system_eq (m : msh) :
    reduced_system m
      = reduction (global_K m) (load_vector m.node_len (fun _ => 0) (inh.constant 0 none).2).1
          m.node_types := rfl

/-- The matrix `K` of `main` for the mesh of one triangle: read as `K(r, c)` it holds the local
stiffness entry `(c, r)`. -/
theorem single_triangle_coeff (P0 P1 P2 : point) (hJ : spec_J P0 P1 P2 ≠ 0)
    (e0 e1 e2 : Nat) (he : [e0, e1, e2].Perm [0, 1, 2]) (nt : node_types) (r c : Fin 3) :
    (global_K (single_triangle P0 P1 P2 e0 e1 e2 nt)).coeff r.val c.val
      = Dbl.fin (spec_local P0 P1 P2 c r) := by
  show assemble _ (fun _ => 0) (r.val + c.val * 3) = _
  rw [Nat.add_comm]
  exact single_triangle_cells P0 P1 P2 hJ e0 e1 e2 he _ c r

/-- The solution of `A u = -(D1 v1 + D2 v2)` when `A + D1 + D2 = 0` and `A ≠ 0` is the average
of `v1` and `v2` with the weights `D1` and `D2`. -/
theorem weighted_average {A D1 D2 v1 v2 u : ℚ} (hA : A ≠ 0) (hsum : A + D1 + D2 = 0)
    (hu : A * u = 0 - (D1 * v1 + D2 * v2)) :
    D1 + D2 ≠ 0 ∧ u = (D1 * v1 + D2 * v2) / (D1 + D2) := by
  have hD : D1 + D2 = -A := by linarith
  have hne : D1 + D2 ≠ 0 := by
    rw [hD]
    exact neg_ne_zero.mpr hA
  refine ⟨hne, ?_⟩
  rw [eq_div_iff hne, hD]
  linarith

/-! ## A degenerate triangle -/

theorem sum_eq_nan_of_mem (l : List Dbl) (h : Dbl.nan ∈ l) : l.sum = Dbl.nan := by
  induction l with
  | nil => cases h
  | cons a l ih =>
    rw [List.sum_cons]
    rcases List.mem_cons.mp h with e | hmem
    · rw [← e]
      exact Dbl.nan_add _
    · rw [ih hmem]
      exact Dbl.add_nan _

/-- With `J = 0` every entry `(n_p, n_q)` is non-finite after `triangle`, whatever the nodes
and whatever it held before. -/
theorem triangle_degenerate (sf : shape_function) (K : Nat → Dbl) (N i j k : Nat)
    (hJ : spec_J (sf.nodes i) (sf.nodes j) (sf.nodes k) = 0) (p q : Fin 3) :
    sf.triangle i j k K N (shape_function.ind i j k p * N + shape_function.ind i j k q)
      = Dbl.nan := by
  rw [triangle_eq_updates, apply_updates_apply]
  have hmem : Dbl.nan ∈ ((sf.updates i j k N).filter (fun u => decide (u.1
      = shape_function.ind i j k p * N + shape_function.ind i j k q))).map Prod.snd := by
    refine List.mem_map.mpr ⟨(shape_function.ind i j k p * N + shape_function.ind i j k q,
      sf.entry i j k p q), ?_, entry_of_eq sf i j k hJ p q⟩
    refine List.mem_filter.mpr ⟨?_, by simp⟩
    unfold shape_function.updates
    refine List.mem_map.mpr ⟨(p, q), ?_, rfl⟩
    fin_cases p <;> fin_cases q <;> decide
  rw [sum_eq_nan_of_mem _ hmem]
  exact Dbl.add_nan _

theorem triangle_other_cells (sf : shape_function) (K : Nat → Dbl) (N i j k c : Nat)
    (hc : ∀ p q : Fin 3, c ≠ shape_function.ind i j k p * N + shape_function.ind i j k q) :
    sf.triangle i j k K N c = K c := by
  rw [triangle_eq_updates]
  apply apply_updates_of_not_mem
  intro hmem
  obtain ⟨u, hu, rfl⟩ := List.mem_map.mp hmem
  obtain ⟨pq, _, rfl⟩ := List.mem_map.mp hu
  exact hc pq.1 pq.2 rfl

/-! ## Boundary files that are not valid -/

theorem constant_calls_some (c0 : Dbl) (cs : List Dbl) :
    constant_calls cs (some c0) = cs.map (fun _ => c0) := by
  induction cs with
  | nil => rfl
  | cons c cs ih =>
    show c0 :: constant_calls cs (some c0) = _
    rw [ih]
    rfl

theorem quadratic_calls_some (a0 b0 : Dbl) (qs : List (Dbl × Dbl × Dbl × Dbl)) :
    quadratic_calls qs (some (a0, b0))
      = qs.map (fun q => a0 * q.1 * q.1 + b0 * q.2.1 * q.2.1) := by
  induction qs with
  | nil => rfl
  | cons q qs ih =>
    show (a0 * q.1 * q.1 + b0 * q.2.1 * q.2.1) :: quadratic_calls qs (some (a0, b0)) = _
    rw [ih]
    rfl

/-! ## The arrays of `set_node_types` -/

/-- What one element line does to the element list. -/
theorem store_element_eq (declared : Nat) (old : Nat → Nat → Nat) (type : Int)
    (ids : List Nat) (elements : List element) :
    store_element declared old type ids elements
      = if recognized type = true then
          store_record declared old (nodes_of_type type) type ids elements
        else outcome.returns elements := by
  unfold store_element recognized nodes_of_type POINT_ID EDGE_ID TRIANGLE_ID QUADRANGLE_ID
    TRIANGLE_2ND_ID QUADRANGLE_2ND_ID
  by_cases h15 : type = 15
  · subst h15
    simp
  by_cases h1 : type = 1
  · subst h1
    simp
  by_cases h2 : type = 2
  · subst h2
    simp
  by_cases h3 : type = 3
  · subst h3
    simp
  by_cases h9 : type = 9
  · subst h9
    simp
  by_cases h16 : type = 16
  · subst h16
    simp
  simp [h15, h1, h2, h3, h9, h16]

/-- The two loops of the section run through the element records in source order. -/
theorem foldl_blocks_eq_records (declared : Nat) (old : Nat → Nat → Nat)
    (blocks : List element_block) :
    ∀ st : outcome (List element),
      blocks.foldl (fun st block =>
          block.lines.foldl (next_line declared old block.type) st) st
        = (element_records blocks).foldl
            (fun st r => next_line declared old r.1 st r.2) st := by
  induction blocks with
  | nil => intro st; rfl
  | cons block blocks ih =>
    intro st
    rw [List.foldl_cons, ih]
    simp [element_records, List.flatMap_cons, List.foldl_append, List.foldl_map]

/-- Once a store has fallen outside the array, the run stays undefined. -/
theorem foldl_records_out_of_bounds (declared : Nat) (old : Nat → Nat → Nat)
    (rs : List (Int × List Nat)) :
    rs.foldl (fun st r => next_line declared old r.1 st r.2) outcome.out_of_bounds
      = outcome.out_of_bounds := by
  induction rs with
  | nil => rfl
  | cons r rs ih =>
    rw [List.foldl_cons]
    exact ih

/-- The element list after the records `rs`, from a list `acc` that fits the array. -/
theorem foldl_records (declared : Nat) (old : Nat → Nat → Nat) (rs : List (Int × List Nat)) :
    ∀ acc : List element, acc.length ≤ declared →
      rs.foldl (fun st r => next_line declared old r.1 st r.2) (outcome.returns acc)
        = if acc.length + (rs.filter (fun r => recognized r.1)).length ≤ declared then
            outcome.returns (acc ++ ((rs.filter (fun r => recognized r.1)).enumFrom
              acc.length).map
                (fun kr => (⟨scan_ids (nodes_of_type kr.2.1) kr.2.2 (old kr.1), kr.2.1⟩ :
                  element)))
          else outcome.out_of_bounds := by
  induction rs with
  | nil =>
    intro acc hacc
    simp [hacc]
  | cons r rs ih =>
    intro acc hacc
    rw [List.foldl_cons]
    show List.foldl _ (store_element declared old r.1 r.2 acc) rs = _
    rw [store_element_eq]
    by_cases hr : recognized r.1 = true
    · rw [if_pos hr, List.filter_cons_of_pos (p := fun r : Int × List Nat => recognized r.1) hr]
      unfold store_record
      by_cases hlt : acc.length < declared
      · rw [if_pos hlt, ih _ (by rw [List.length_append]; exact hlt)]
        have e : (acc ++ [(⟨scan_ids (nodes_of_type r.1) r.2 (old acc.length), r.1⟩ :
            element)]).length = acc.length + 1 := by
          rw [List.length_append]
          rfl
        rw [e, List.length_cons, List.enumFrom_cons, List.map_cons, List.append_assoc]
        have e2 : acc.length + 1 + (rs.filter (fun r => recognized r.1)).length
            = acc.length + ((rs.filter (fun r => recognized r.1)).length + 1) := by omega
        rw [e2]
        rfl
      · rw [if_neg hlt, foldl_records_out_of_bounds, List.length_cons, if_neg (by omega)]
    · rw [if_neg hr, List.filter_cons_of_neg (p := fun r : Int × List Nat => recognized r.1) hr]
      exact ih acc hacc

/-- The `$Elements` section with a header count that `operator new[]` accepts. -/
theorem read_elements_eq (old : Nat → Nat → Nat) (declared : Nat)
    (blocks : List element_block) (halloc : declared * 72 < 2 ^ 63) :
    read_elements old declared blocks
      = if ((element_records blocks).filter (fun r => recognized r.1)).length ≤ declared then
          outcome.returns (stored_records old blocks,
            ((element_records blocks).filter (fun r => recognized r.1)).length)
        else outcome.out_of_bounds := by
  have ha : array_new 72 declared = true := by
    unfold array_new
    exact decide_eq_true halloc
  unfold read_elements
  rw [if_pos ha, foldl_blocks_eq_records, foldl_records _ _ _ [] (Nat.zero_le _)]
  simp only [List.length_nil, Nat.zero_add, List.nil_append]
  by_cases h : ((element_records blocks).filter (fun r => recognized r.1)).length ≤ declared
  · rw [if_pos h, if_pos h]
    show outcome.returns (_, _) = _
    unfold stored_records List.enum
    rw [List.length_map, List.enumFrom_length]
  · rw [if_neg h, if_neg h]

/-- A header count whose byte count does not fit is refused before a line is read. -/
theorem read_elements_refused (old : Nat → Nat → Nat) (declared : Nat)
    (blocks : List element_block) (halloc : ¬ declared * 72 < 2 ^ 63) :
    read_elements old declared blocks = outcome.bad_array_new_length := by
  have ha : ¬ array_new 72 declared = true := by
    unfold array_new
    simpa using halloc
  unfold read_elements
  rw [if_neg ha]

/-- A line with as many ids as its type has nodes: every id is stored one lower, and nothing
of the fresh record is kept. -/
theorem scan_ids_of_length (n : Nat) (ids : List Nat) (old : Nat → Nat) (hlen : ids.length = n)
    (hid : ∀ id ∈ ids, 1 ≤ id ∧ id < 2 ^ 64) :
    scan_ids n ids old = ids.map (fun id => id - 1) := by
  unfold scan_ids
  apply List.ext_getElem
  · simp [hlen]
  · intro p h1 h2
    have hp : p < ids.length := by
      rw [List.length_map] at h2
      exact h2
    rw [List.getElem_map, List.getElem_map, List.getElem_range,
      List.getD_eq_getElem _ _ hp]
    exact size_sub_of_le (hid _ (List.getElem_mem _)).1 (hid _ (List.getElem_mem _)).2

/-- The stored records when every recognized record has the ids of its type. -/
theorem enumFrom_map_scan (old : Nat → Nat → Nat) (rs : List (Int × List Nat))
    (h : ∀ r ∈ rs, r.2.length = nodes_of_type r.1 ∧ ∀ id ∈ r.2, 1 ≤ id ∧ id < 2 ^ 64) :
    ∀ k : Nat, (rs.enumFrom k).map
        (fun kr => (⟨scan_ids (nodes_of_type kr.2.1) kr.2.2 (old kr.1), kr.2.1⟩ : element))
      = rs.map (fun r => (⟨r.2.map (fun id => id - 1), r.1⟩ : element)) := by
  induction rs with
  | nil => intro k; rfl
  | cons r rs ih =>
    intro k
    rw [List.enumFrom_cons, List.map_cons, List.map_cons,
      ih (fun r hr => h r (List.mem_cons_of_mem _ hr))]
    have hr := h r (List.mem_cons_self _ _)
    show (⟨scan_ids (nodes_of_type r.1) r.2 (old k), r.1⟩ : element) :: _ = _
    rw [scan_ids_of_length _ _ _ hr.1 hr.2]

/-! ## The output loop -/

theorem foldl_samples (m : msh) (u : Nat → Dbl) (el : element) (out : List out_item) :
    (List.range 4).foldl (fun out ii =>
        out ++ [out_item.sample (m.nodes (el.node_ids.getD (ii % 3) 0)).x
          (m.nodes (el.node_ids.getD (ii % 3) 0)).y
          (u (el.node_ids.getD (ii % 3) 0))]) out
      = out ++ outline m u el := by
  have h4 : List.range 4 = [0, 1, 2, 3] := rfl
  rw [h4]
  simp [outline]

theorem foldl_write_map (m : msh) (u : Nat → Dbl) (els : List element) :
    ∀ out : List out_item,
      els.foldl (fun out element =>
          (if element.type = TRIANGLE_ID then
            (List.range 4).foldl (fun out ii =>
              out ++ [out_item.sample (m.nodes (element.node_ids.getD (ii % 3) 0)).x
                (m.nodes (element.node_ids.getD (ii % 3) 0)).y
                (u (element.node_ids.getD (ii % 3) 0))]) out
          else out) ++ [out_item.blank]) out
        = out ++ els.flatMap (fun el =>
            (if el.type = TRIANGLE_ID then outline m u el else []) ++ [out_item.blank]) := by
  induction els with
  | nil => intro out; simp
  | cons el els ih =>
    intro out
    rw [List.foldl_cons, ih, List.flatMap_cons, foldl_samples]
    by_cases h : el.type = TRIANGLE_ID
    · simp [h]
    · simp [h]

/-! ## The gap walk on an empty boundary file -/

theorem gap_walk_empty (junk node_len : Nat) :
    gap_walk node_len 0 [] junk (2 ^ 32) 1 0 (size_to_int junk) []
      = some (0, size_to_int junk, []) := by
  rw [show (2 : Nat) ^ 32 = 4294967295 + 1 from rfl, gap_walk]
  have hc : ¬ (int_to_size 1 < (0 + 1) % 2 ^ 64) := by decide
  rw [if_neg hc]

/-- With no boundary line the walk copies the word found at `boundary_nodes_sort[0]` into
`end`, skips its loop, and fills the interior list up to that word. -/
theorem set_node_types_empty (junk node_len : Nat) :
    set_node_types junk [] node_len
      = some ⟨[], fill 0 (size_to_int junk), [], 0, size_sub node_len 0⟩ := by
  have hst : gap_walk node_len ([] : List (Nat × Dbl)).length
      ((read_boundary []).1.insertionSort (· ≤ ·)) junk (2 ^ 32) 1 0
      (size_to_int (((read_boundary []).1.insertionSort (· ≤ ·)).getD 0 junk)) []
      = some (0, size_to_int junk, []) := gap_walk_empty junk node_len
  unfold set_node_types
  simp only [hst]
  rw [List.length_nil, List.nil_append]
  rfl

/-! ## The Jacobian and collinear vertices -/

theorem J_eq_cross (sf : shape_function) (i j k : Nat) :
    sf.J i j k
      = |((sf.nodes j).x - (sf.nodes i).x) * ((sf.nodes k).y - (sf.nodes i).y)
          - ((sf.nodes k).x - (sf.nodes i).x) * ((sf.nodes j).y - (sf.nodes i).y)| := by
  unfold shape_function.J shape_function.a shape_function.b shape_function.x shape_function.y
  simp only [Matrix.cons_val_zero, Matrix.cons_val_one, Matrix.cons_val_two, Matrix.head_cons,
    Matrix.tail_cons]
  congr 1
  ring

/-- Three points lie on one line exactly when the parallelogram they span has no area. -/
theorem collinear_iff_cross (P0 P1 P2 : point) :
    collinear P0 P1 P2
      ↔ (P1.x - P0.x) * (P2.y - P0.y) - (P2.x - P0.x) * (P1.y - P0.y) = 0 := by
  constructor
  · rintro ⟨α, β, γ, hab, h0, h1, h2⟩
    have e1 : α * (P1.x - P0.x) + β * (P1.y - P0.y) = 0 := by linarith
    have e2 : α * (P2.x - P0.x) + β * (P2.y - P0.y) = 0 := by linarith
    rcases hab with ha | hb
    · have : α * ((P1.x - P0.x) * (P2.y - P0.y) - (P2.x - P0.x) * (P1.y - P0.y)) = 0 := by
        linear_combination (P2.y - P0.y) * e1 - (P1.y - P0.y) * e2
      exact (mul_eq_zero.mp this).resolve_left ha
    · have : β * ((P1.x - P0.x) * (P2.y - P0.y) - (P2.x - P0.x) * (P1.y - P0.y)) = 0 := by
        linear_combination (P1.x - P0.x) * e2 - (P2.x - P0.x) * e1
      exact (mul_eq_zero.mp this).resolve_left hb
  · intro h
    by_cases h1 : P1.x - P0.x = 0 ∧ P1.y - P0.y = 0
    · by_cases h2 : P2.x - P0.x = 0 ∧ P2.y - P0.y = 0
      · refine ⟨1, 0, P0.x, Or.inl one_ne_zero, by ring, ?_, ?_⟩
        · linarith [h1.1]
        · linarith [h2.1]
      · refine ⟨-(P2.y - P0.y), P2.x - P0.x,
          -(P2.y - P0.y) * P0.x + (P2.x - P0.x) * P0.y, ?_, rfl, ?_, by ring⟩
        · by_contra hn
          rw [not_or, not_not, not_not] at hn
          exact h2 ⟨hn.2, neg_eq_zero.mp hn.1⟩
        · linear_combination (-(P2.y - P0.y)) * h1.1 + (P2.x - P0.x) * h1.2
    · refine ⟨-(P1.y - P0.y), P1.x - P0.x,
        -(P1.y - P0.y) * P0.x + (P1.x - P0.x) * P0.y, ?_, rfl, by ring, ?_⟩
      · by_contra hn
        rw [not_or, not_not, not_not] at hn
        exact h1 ⟨hn.2, neg_eq_zero.mp hn.1⟩
      · linear_combination h

/-! ## Symmetry of the assembled matrix -/

theorem apply_updates_eq_added (K : Nat → Dbl) (us : List (Nat × Dbl)) (c : Nat) :
    apply_updates K us c = K c + added_at us c :=
  apply_updates_apply us K c

theorem added_at_append (us vs : List (Nat × Dbl)) (c : Nat) :
    added_at (us ++ vs) c = added_at us c + added_at vs c := by
  simp [added_at, List.filter_append]

theorem added_at_flatMap {α : Type} (g : α → List (Nat × Dbl)) (c : Nat) (l : List α) :
    added_at (l.flatMap g) c = (l.map (fun e => added_at (g e) c)).sum := by
  induction l with
  | nil => rfl
  | cons e l ih => rw [List.flatMap_cons, added_at_append, ih, List.map_cons, List.sum_cons]

theorem entry_symm (sf : shape_function) (i j k : Nat) (p q : Fin 3) :
    sf.entry i j k p q = sf.entry i j k q p := by
  unfold shape_function.entry
  congr 2
  ring

/-- What one call of `triangle` on nodes below `N` adds to the entry `(r, c)` of the matrix:
the local entries `(p, q)` with `n_p = r` and `n_q = c`. -/
theorem added_at_updates (sf : shape_function) {N i j k r c : Nat}
    (hi : i < N) (hj : j < N) (hk : k < N) (hc : c < N) :
    added_at (sf.updates i j k N) (r * N + c)
      = ((loop_pairs.filter (fun pq => decide (shape_function.ind i j k pq.1 = r
            ∧ shape_function.ind i j k pq.2 = c))).map
          (fun pq => sf.entry i j k pq.1 pq.2)).sum := by
  unfold added_at shape_function.updates
  rw [List.filter_map, List.map_map]
  congr 2
  apply List.filter_congr
  intro pq _
  simp only [Function.comp]
  apply decide_eq_decide.mpr
  constructor
  · intro h
    exact cell_inj (ind_lt hi hj hk pq.2) hc h
  · rintro ⟨h1, h2⟩
    rw [h1, h2]

theorem added_at_updates_symm (sf : shape_function) {N i j k r c : Nat}
    (hi : i < N) (hj : j < N) (hk : k < N) (hr : r < N) (hc : c < N) :
    added_at (sf.updates i j k N) (r * N + c) = added_at (sf.updates i j k N) (c * N + r) := by
  rw [added_at_updates sf hi hj hk hc, added_at_updates sf hi hj hk hr]
  have hperm : (loop_pairs.map Prod.swap).Perm loop_pairs := by decide
  have h1 : ((loop_pairs.filter (fun pq => decide (shape_function.ind i j k pq.1 = r
        ∧ shape_function.ind i j k pq.2 = c))).map (fun pq => sf.entry i j k pq.1 pq.2)).sum
      = (((loop_pairs.map Prod.swap).filter (fun pq => decide (shape_function.ind i j k pq.1 = r
        ∧ shape_function.ind i j k pq.2 = c))).map (fun pq => sf.entry i j k pq.1 pq.2)).sum :=
    (((hperm.filter _).map _).sum_eq).symm
  rw [h1, List.filter_map, List.map_map]
  congr 1
  have hf : loop_pairs.filter ((fun pq : Fin 3 × Fin 3 =>
        decide (shape_function.ind i j k pq.1 = r ∧ shape_function.ind i j k pq.2 = c))
          ∘ Prod.swap)
      = loop_pairs.filter (fun pq => decide (shape_function.ind i j k pq.1 = c
        ∧ shape_function.ind i j k pq.2 = r)) := by
    apply List.filter_congr
    intro pq _
    simp only [Function.comp, Prod.fst_swap, Prod.snd_swap]
    exact decide_eq_decide.mpr and_comm
  rw [hf]
  apply List.map_congr_left
  intro pq _
  simp only [Function.comp, Prod.fst_swap, Prod.snd_swap]
  exact entry_symm sf i j k pq.2 pq.1

/-- The assembly loop keeps a matrix symmetric when the triangles name nodes of the mesh. -/
theorem assemble_symm (m : msh) (K : Nat → Dbl)
    (hsym : ∀ r c, r < m.node_len → c < m.node_len →
      K (r * m.node_len + c) = K (c * m.node_len + r))
    (hin : ∀ el ∈ m.elements, el.type = TRIANGLE_ID →
      el.node_ids.getD 0 0 < m.node_len ∧ el.node_ids.getD 1 0 < m.node_len
        ∧ el.node_ids.getD 2 0 < m.node_len)
    (r c : Nat) (hr : r < m.node_len) (hc : c < m.node_len) :
    assemble m K (r * m.node_len + c) = assemble m K (c * m.node_len + r) := by
  rw [assemble_eq_updates, apply_updates_eq_added, apply_updates_eq_added, hsym r c hr hc,
    added_at_flatMap, added_at_flatMap]
  congr 2
  apply List.map_congr_left
  intro el hel
  unfold element_updates
  by_cases ht : el.type = TRIANGLE_ID
  · rw [if_pos ht]
    obtain ⟨h0, h1, h2⟩ := hin el hel ht
    exact added_at_updates_symm _ h0 h1 h2 hr hc
  · rw [if_neg ht]
    rfl
/-! ## Claims about the node classification -/

/-- C1: for every node count `node_len` below `2 ^ 31` and every boundary file
that names at least one node and only distinct nodes of the mesh (ids from 1 to `node_len`,
in any order), `set_node_types` returns a classification whose interior list is exactly the
ascending list of the integers of `[0, node_len)` that are not boundary indices; hence the
two lists cover `[0, node_len)`, share no index, and the interior list has
`node_len - |B| = inode_len` entries. -/
theorem C1_interior_is_complement (junk node_len : Nat) (spec : List (Nat × Dbl))
    (hN : node_len < 2 ^ 31) (hne : spec ≠ [])
    (hid : ∀ ln ∈ spec, 1 ≤ ln.1 ∧ ln.1 ≤ node_len) (hnd : (spec.map Prod.fst).Nodup) :
    ∃ r, set_node_types junk spec node_len = some r
      ∧ r.boundary_nodes = spec.map (fun ln => ln.1 - 1)
      ∧ r.interior_nodes
          = (List.range node_len).filter (fun n => decide (n ∉ r.boundary_nodes))
      ∧ r.interior_nodes.Sorted (· < ·)
      ∧ (∀ n, n < node_len ↔ (n ∈ r.interior_nodes ∨ n ∈ r.boundary_nodes))
      ∧ (∀ n, n ∈ r.interior_nodes → n ∉ r.boundary_nodes)
      ∧ r.interior_nodes.length = node_len - r.boundary_nodes.length
      ∧ r.inode_len = r.interior_nodes.length := by
  obtain ⟨h, hlen⟩ := set_node_types_valid junk node_len spec hN hne hid hnd
  refine ⟨_, h, rfl, rfl, ?_, ?_, ?_, ?_, ?_⟩
  · exact ((List.pairwise_lt_range node_len).sublist (List.filter_sublist _))
  · intro n
    simp only [List.mem_filter, List.mem_range, decide_eq_true_eq]
    constructor
    · intro hn
      by_cases hb : n ∈ spec.map (fun ln => ln.1 - 1)
      · exact Or.inr hb
      · exact Or.inl ⟨hn, hb⟩
    · rintro (⟨hn, _⟩ | hb)
      · exact hn
      · obtain ⟨ln, hln, rfl⟩ := List.mem_map.mp hb
        have := hid ln hln
        omega
  · intro n hn
    simp only [List.mem_filter, decide_eq_true_eq] at hn
    exact hn.2
  · simp only [List.length_map]
    exact hlen
  · exact hlen.symm

/-- C1, witness: five nodes with the boundary ids 1, 3, 5 give the interior list `[1, 3]`. -/
theorem C1_interior_is_complement_witness :
    ∃ r, set_node_types 0 [(1, Dbl.fin 7), (3, Dbl.fin 8), (5, Dbl.fin 9)] 5 = some r
      ∧ r.boundary_nodes = [0, 2, 4] ∧ r.interior_nodes = [1, 3] ∧ r.inode_len = 2 := by
  obtain ⟨r, h1, h2, h3, _, _, _, _, h8⟩ := C1_interior_is_complement 0 5
    [(1, Dbl.fin 7), (3, Dbl.fin 8), (5, Dbl.fin 9)] (by norm_num) (by decide) (by decide)
    (by decide)
  have hb : r.boundary_nodes = [0, 2, 4] := by rw [h2]; rfl
  have hi : r.interior_nodes = [1, 3] := by rw [h3, hb]; decide
  exact ⟨r, h1, hb, hi, by rw [h8, hi]; rfl⟩

/-- C1, counterexample: with `2 ^ 31` nodes and the single boundary id 1 the node count
turns negative when converted to `int`; nothing is written to the interior list, so the
interior node 1 is missing and the list does not have `node_len - |B|` entries. -/
theorem C1_counterexample :
    ∃ r, set_node_types 0 [(1, Dbl.fin 0)] 2147483648 = some r
      ∧ r.boundary_nodes = [0] ∧ r.interior_nodes = [] ∧ r.inode_len = 2147483647
      ∧ (1 < 2147483648 ∧ 1 ∉ r.boundary_nodes ∧ 1 ∉ r.interior_nodes)
      ∧ r.interior_nodes.length ≠ 2147483648 - r.boundary_nodes.length :=
  ⟨{ boundary_nodes := [0], interior_nodes := [], boundary_values := [Dbl.fin 0],
     bnode_len := 1, inode_len := 2147483647 },
    by decide, by decide, by decide, by decide, by decide, by decide⟩

/-- C3: for every array `K` of an `N × N` matrix and distinct node indices `n0, n1, n2 < N`
whose coordinates give `J ≠ 0`, `triangle(n0, n1, n2, K, N)` adds
`(1 / (2 J)) * (a_p * a_q + b_p * b_q)` to the entry `(n_p, n_q)` (offset `n_p * N + n_q`) for
each `p, q` in `{0, 1, 2}`, onto the value the entry had, and leaves every other entry of `K`
as it was. -/
theorem C3_triangle_accumulates (sf : shape_function) (K : Nat → Dbl) (N n0 n1 n2 : Nat)
    (h0 : n0 < N) (h1 : n1 < N) (h2 : n2 < N)
    (h01 : n0 ≠ n1) (h02 : n0 ≠ n2) (h12 : n1 ≠ n2)
    (hJ : spec_J (sf.nodes n0) (sf.nodes n1) (sf.nodes n2) ≠ 0) :
    (∀ p q : Fin 3,
        sf.triangle n0 n1 n2 K N (![n0, n1, n2] p * N + ![n0, n1, n2] q)
          = K (![n0, n1, n2] p * N + ![n0, n1, n2] q)
            + Dbl.fin (spec_local (sf.nodes n0) (sf.nodes n1) (sf.nodes n2) p q))
      ∧ ∀ c : Nat, (∀ p q : Fin 3, c ≠ ![n0, n1, n2] p * N + ![n0, n1, n2] q) →
          sf.triangle n0 n1 n2 K N c = K c := by
  constructor
  · intro p q
    exact triangle_cell sf K h0 h1 h2 h01 h02 h12 hJ p q
  · intro c hc
    rw [triangle_eq_updates]
    apply apply_updates_of_not_mem
    intro hmem
    obtain ⟨u, hu, rfl⟩ := List.mem_map.mp hmem
    obtain ⟨pq, _, rfl⟩ := List.mem_map.mp hu
    exact hc pq.1 pq.2 rfl

/-- C3, witness: the triangle with the vertices (0,0), (1,0), (0,1) on the zero matrix of
order 3: the entry (0,1) becomes -1/2, the entry (1,2) becomes 0, and the entry at offset 9,
outside the matrix, is not touched. -/
theorem C3_triangle_accumulates_witness :
    spec_J ⟨0, 0⟩ ⟨1, 0⟩ ⟨0, 1⟩ ≠ 0
      ∧ shape_function.triangle ⟨three_nodes ⟨0, 0⟩ ⟨1, 0⟩ ⟨0, 1⟩⟩ 0 1 2 (fun _ => 0) 3 1
          = Dbl.fin (-1 / 2)
      ∧ shape_function.triangle ⟨three_nodes ⟨0, 0⟩ ⟨1, 0⟩ ⟨0, 1⟩⟩ 0 1 2 (fun _ => 0) 3 5
          = Dbl.fin 0
      ∧ shape_function.triangle ⟨three_nodes ⟨0, 0⟩ ⟨1, 0⟩ ⟨0, 1⟩⟩ 0 1 2 (fun _ => 0) 3 9
          = 0 := by
  have hJ : spec_J ⟨0, 0⟩ ⟨1, 0⟩ ⟨0, 1⟩ ≠ 0 := by
    norm_num [spec_J, spec_a, spec_b]
  have h := C3_triangle_accumulates ⟨three_nodes ⟨0, 0⟩ ⟨1, 0⟩ ⟨0, 1⟩⟩ (fun _ => 0) 3 0 1 2
    (by decide) (by decide) (by decide) (by decide) (by decide) (by decide) hJ
  refine ⟨hJ, ?_, ?_, ?_⟩
  · have h01 := h.1 0 1
    simp only [Matrix.cons_val_zero, Matrix.cons_val_one, Matrix.head_cons] at h01
    rw [show (0 * 3 + 1 : Nat) = 1 from rfl] at h01
    rw [h01]
    norm_num [spec_local, spec_J, spec_a, spec_b, three_nodes]
  · have h12 := h.1 1 2
    simp only [Matrix.cons_val_one, Matrix.cons_val_two, Matrix.head_cons, Matrix.tail_cons] at h12
    rw [show (1 * 3 + 2 : Nat) = 5 from rfl] at h12
    rw [h12]
    norm_num [spec_local, spec_J, spec_a, spec_b, three_nodes]
  · apply h.2
    intro p q
    fin_cases p <;> fin_cases q <;> decide

/-- C4: for every triangle with `J ≠ 0`, each row of the local stiffness matrix
that `triangle` computes sums to zero: the three values added for a row `p` are the finite
numbers `(1 / (2 J)) * (a_p * a_q + b_p * b_q)`, `q = 0, 1, 2`, and their sum is 0. -/
theorem C4_rows_sum_to_zero (sf : shape_function) (i j k : Nat)
    (hJ : spec_J (sf.nodes i) (sf.nodes j) (sf.nodes k) ≠ 0) (p : Fin 3) :
    sf.entry i j k p 0 + sf.entry i j k p 1 + sf.entry i j k p 2 = Dbl.fin 0
      ∧ (∀ q, sf.entry i j k p q
          = Dbl.fin (spec_local (sf.nodes i) (sf.nodes j) (sf.nodes k) p q))
      ∧ spec_local (sf.nodes i) (sf.nodes j) (sf.nodes k) p 0
          + spec_local (sf.nodes i) (sf.nodes j) (sf.nodes k) p 1
          + spec_local (sf.nodes i) (sf.nodes j) (sf.nodes k) p 2 = 0 := by
  have hsum : spec_local (sf.nodes i) (sf.nodes j) (sf.nodes k) p 0
      + spec_local (sf.nodes i) (sf.nodes j) (sf.nodes k) p 1
      + spec_local (sf.nodes i) (sf.nodes j) (sf.nodes k) p 2 = 0 := by
    fin_cases p <;> simp [spec_local, spec_a, spec_b] <;> ring
  refine ⟨?_, fun q => entry_of_ne sf i j k hJ p q, hsum⟩
  rw [entry_of_ne sf i j k hJ, entry_of_ne sf i j k hJ, entry_of_ne sf i j k hJ,
    Dbl.fin_add_fin, Dbl.fin_add_fin, hsum]

/-- C4, witness: the triangle with the vertices (0,0), (1,0), (0,1). -/
theorem C4_rows_sum_to_zero_witness :
    spec_J ⟨0, 0⟩ ⟨1, 0⟩ ⟨0, 1⟩ = 1
      ∧ ∀ p : Fin 3,
        shape_function.entry ⟨three_nodes ⟨0, 0⟩ ⟨1, 0⟩ ⟨0, 1⟩⟩ 0 1 2 p 0
          + shape_function.entry ⟨three_nodes ⟨0, 0⟩ ⟨1, 0⟩ ⟨0, 1⟩⟩ 0 1 2 p 1
          + shape_function.entry ⟨three_nodes ⟨0, 0⟩ ⟨1, 0⟩ ⟨0, 1⟩⟩ 0 1 2 p 2 = Dbl.fin 0 := by
  have hJ : spec_J ⟨0, 0⟩ ⟨1, 0⟩ ⟨0, 1⟩ = 1 := by
    norm_num [spec_J, spec_a, spec_b]
  refine ⟨hJ, fun p => ?_⟩
  exact (C4_rows_sum_to_zero ⟨three_nodes ⟨0, 0⟩ ⟨1, 0⟩ ⟨0, 1⟩⟩ 0 1 2
    (by rw [show spec_J (three_nodes ⟨0, 0⟩ ⟨1, 0⟩ ⟨0, 1⟩ 0) (three_nodes ⟨0, 0⟩ ⟨1, 0⟩ ⟨0, 1⟩ 1)
        (three_nodes ⟨0, 0⟩ ⟨1, 0⟩ ⟨0, 1⟩ 2) = 1 from hJ]; exact one_ne_zero) p).1

/-- C4, counterexample: the collinear vertices (0,0), (1,0), (2,0) give `J = 0`; the values
that `triangle` computes for a row are then non-finite, and so is their sum, which is not 0. -/
theorem C4_counterexample :
    shape_function.J ⟨three_nodes ⟨0, 0⟩ ⟨1, 0⟩ ⟨2, 0⟩⟩ 0 1 2 = 0
      ∧ shape_function.entry ⟨three_nodes ⟨0, 0⟩ ⟨1, 0⟩ ⟨2, 0⟩⟩ 0 1 2 0 0
          + shape_function.entry ⟨three_nodes ⟨0, 0⟩ ⟨1, 0⟩ ⟨2, 0⟩⟩ 0 1 2 0 1
          + shape_function.entry ⟨three_nodes ⟨0, 0⟩ ⟨1, 0⟩ ⟨2, 0⟩⟩ 0 1 2 0 2 = Dbl.nan
      ∧ shape_function.entry ⟨three_nodes ⟨0, 0⟩ ⟨1, 0⟩ ⟨2, 0⟩⟩ 0 1 2 0 0
          + shape_function.entry ⟨three_nodes ⟨0, 0⟩ ⟨1, 0⟩ ⟨2, 0⟩⟩ 0 1 2 0 1
          + shape_function.entry ⟨three_nodes ⟨0, 0⟩ ⟨1, 0⟩ ⟨2, 0⟩⟩ 0 1 2 0 2 ≠ Dbl.fin 0 := by
  have hJ : spec_J ((⟨three_nodes ⟨0, 0⟩ ⟨1, 0⟩ ⟨2, 0⟩⟩ : shape_function).nodes 0)
      ((⟨three_nodes ⟨0, 0⟩ ⟨1, 0⟩ ⟨2, 0⟩⟩ : shape_function).nodes 1)
      ((⟨three_nodes ⟨0, 0⟩ ⟨1, 0⟩ ⟨2, 0⟩⟩ : shape_function).nodes 2) = 0 := by
    norm_num [spec_J, spec_a, spec_b, three_nodes]
  refine ⟨hJ, ?_, ?_⟩
  · rw [entry_of_eq _ 0 1 2 hJ 0 0]
    simp
  · rw [entry_of_eq _ 0 1 2 hJ 0 0]
    simp

/-! ## Claims about the reduction and the back-substitution -/

/-- C5: for every global `K`, global `f` and classification (interior list read at the
positions below `inode_len`, boundary list and values read at the positions below
`bnode_len`), the reduction loop of `main` produces a matrix of order `inode_len` with
`K_unknowns(i, j) = K(interior(i), interior(j))` for all `i, j < inode_len`, `j = i`
included, and `f_unknowns(i) = f(interior(i)) - Σ_{j < bnode_len} K(interior(i),
boundary(j)) * boundary_value(j)` for all `i < inode_len`. -/
theorem C5_reduction (K : MatrixXd) (f : Nat → Dbl) (nt : node_types) :
    (reduction K f nt).1.rows = nt.inode_len
      ∧ (∀ i j, i < nt.inode_len → j < nt.inode_len →
          (reduction K f nt).1.coeff i j
            = K.coeff (nt.interior_nodes.getD i 0) (nt.interior_nodes.getD j 0))
      ∧ (∀ i, i < nt.inode_len →
          (reduction K f nt).2 i
            = f (nt.interior_nodes.getD i 0)
              - sum_below nt.bnode_len (fun j =>
                  K.coeff (nt.interior_nodes.getD i 0) (nt.boundary_nodes.getD j 0)
                    * nt.boundary_values.getD j 0)) := by
  exact reduction_spec K f nt

/-- C5, witness: three nodes, boundary nodes 0 and 2 with the values 10 and 20, interior
node 1, `K(r, c) = r + 3 c` and `f(n) = 10 n`: `K_unknowns(0, 0) = K(1, 1) = 4` and
`f_unknowns(0) = 10 - (1 * 10 + 7 * 20) = -140`. -/
theorem C5_reduction_witness :
    (reduction ⟨3, 3, fun n => Dbl.fin n⟩ (fun n => Dbl.fin (10 * n))
        ⟨[0, 2], [1], [Dbl.fin 10, Dbl.fin 20], 2, 1⟩).1.coeff 0 0 = Dbl.fin 4
      ∧ (reduction ⟨3, 3, fun n => Dbl.fin n⟩ (fun n => Dbl.fin (10 * n))
        ⟨[0, 2], [1], [Dbl.fin 10, Dbl.fin 20], 2, 1⟩).2 0 = Dbl.fin (-140) := by
  obtain ⟨_, h2, h3⟩ := C5_reduction ⟨3, 3, fun n => Dbl.fin n⟩ (fun n => Dbl.fin (10 * n))
    ⟨[0, 2], [1], [Dbl.fin 10, Dbl.fin 20], 2, 1⟩
  constructor
  · rw [h2 0 0 (by decide) (by decide)]
    norm_num [MatrixXd.coeff]
  · rw [h3 0 (by decide)]
    norm_num [MatrixXd.coeff, sum_below, List.range_succ]

/-- C6: for every classification that partitions `[0, N)` and every interior solution
`u_unknowns`, the two loops assign every entry `n < N` of the solution exactly once; the
result has `u[boundary(i)] = boundary_value(i)` for all `i < bnode_len` and
`u[interior(i)] = u_unknowns(i)` for all `i < inode_len`, whatever the array held before, so
no prescribed boundary value is overwritten by an interior value. -/
theorem C6_back_substitution (nt : node_types) (N : Nat) (hp : nt.partitions N)
    (u_unknowns u : Nat → Dbl) :
    back_substitute nt u_unknowns u
        = (back_substitute_trace nt u_unknowns).foldl (fun u w => Function.update u w.1 w.2) u
      ∧ (∀ n, n < N → ((back_substitute_trace nt u_unknowns).map Prod.fst).count n = 1)
      ∧ (∀ i, i < nt.bnode_len →
          back_substitute nt u_unknowns u (nt.boundary_nodes.getD i 0)
            = nt.boundary_values.getD i 0)
      ∧ (∀ i, i < nt.inode_len →
          back_substitute nt u_unknowns u (nt.interior_nodes.getD i 0) = u_unknowns i)
      ∧ (∀ n, n < N → ∀ u' : Nat → Dbl,
          back_substitute nt u_unknowns u n = back_substitute nt u_unknowns u' n) := by
  have hidx := trace_indices nt N hp u_unknowns
  have hperm := hp.2.2.2
  have hval := back_substitute_value nt N hp u_unknowns
  refine ⟨back_substitute_eq_trace nt u_unknowns u, ?_,
    fun i hi => back_substitute_boundary nt N hp u_unknowns u i hi,
    fun i hi => back_substitute_interior nt N hp u_unknowns u i hi, ?_⟩
  · intro n hn
    rw [hidx, hperm.count_eq]
    exact List.count_eq_one_of_mem (List.nodup_range N) (List.mem_range.mpr hn)
  · intro n hn u'
    have hmem : n ∈ (back_substitute_trace nt u_unknowns).map Prod.fst := by
      rw [hidx, hperm.mem_iff]
      exact List.mem_range.mpr hn
    obtain ⟨w, hw, rfl⟩ := List.mem_map.mp hmem
    rw [hval w hw u, hval w hw u']

/-- C6, witness: three nodes, boundary nodes 2 and 0 with the values 10 and 20, interior
node 1 with the solved value 15. -/
theorem C6_back_substitution_witness :
    back_substitute ⟨[2, 0], [1], [Dbl.fin 10, Dbl.fin 20], 2, 1⟩ (fun _ => Dbl.fin 15)
        (fun _ => Dbl.nan) 2 = Dbl.fin 10
      ∧ back_substitute ⟨[2, 0], [1], [Dbl.fin 10, Dbl.fin 20], 2, 1⟩ (fun _ => Dbl.fin 15)
        (fun _ => Dbl.nan) 0 = Dbl.fin 20
      ∧ back_substitute ⟨[2, 0], [1], [Dbl.fin 10, Dbl.fin 20], 2, 1⟩ (fun _ => Dbl.fin 15)
        (fun _ => Dbl.nan) 1 = Dbl.fin 15 := by
  obtain ⟨_, _, hb, hi, _⟩ := C6_back_substitution
    ⟨[2, 0], [1], [Dbl.fin 10, Dbl.fin 20], 2, 1⟩ 3 (by decide) (fun _ => Dbl.fin 15)
    (fun _ => Dbl.nan)
  exact ⟨hb 0 (by decide), hb 1 (by decide), hi 0 (by decide)⟩

/-- C7: Dirichlet elimination is sound. For every matrix `K`, vector `f` and boundary values,
all finite, and every classification that partitions `[0, N)`: if `u_unknowns` solves the
reduced system built by the reduction loop, `Σ_{j < M} K_unknowns(i, j) * u_unknowns(j) =
f_unknowns(i)` for every `i < M`, then the back-substituted vector `u` satisfies the original
equation at every interior row, `Σ_{c < N} K(interior(i), c) * u[c] = f(interior(i))`. -/
theorem C7_elimination_sound (K : MatrixXd) (f : Nat → Dbl) (nt : node_types) (N : Nat)
    (hp : nt.partitions N)
    (hK : ∀ c, (K.data c).isFinite = true) (hf : ∀ n, (f n).isFinite = true)
    (hv : ∀ v ∈ nt.boundary_values, v.isFinite = true)
    (u_unknowns u : Nat → Dbl)
    (hsol : ∀ i, i < nt.inode_len →
      sum_below nt.inode_len (fun j => (reduction K f nt).1.coeff i j * u_unknowns j)
        = (reduction K f nt).2 i) :
    ∀ i, i < nt.inode_len →
      sum_below N (fun c =>
          K.coeff (nt.interior_nodes.getD i 0) c * back_substitute nt u_unknowns u c)
        = f (nt.interior_nodes.getD i 0) := by
  intro i hi
  obtain ⟨_, hKu, hfu⟩ := reduction_spec K f nt
  rw [sum_below_split nt N hp]
  have hB : sum_below nt.bnode_len (fun j =>
        K.coeff (nt.interior_nodes.getD i 0) (nt.boundary_nodes.getD j 0)
          * back_substitute nt u_unknowns u (nt.boundary_nodes.getD j 0))
      = sum_below nt.bnode_len (fun j =>
        K.coeff (nt.interior_nodes.getD i 0) (nt.boundary_nodes.getD j 0)
          * nt.boundary_values.getD j 0) :=
    sum_below_congr (fun j hj => by rw [back_substitute_boundary nt N hp u_unknowns u j hj])
  have hI : sum_below nt.inode_len (fun j =>
        K.coeff (nt.interior_nodes.getD i 0) (nt.interior_nodes.getD j 0)
          * back_substitute nt u_unknowns u (nt.interior_nodes.getD j 0))
      = sum_below nt.inode_len (fun j => (reduction K f nt).1.coeff i j * u_unknowns j) :=
    sum_below_congr (fun j hj => by
      rw [back_substitute_interior nt N hp u_unknowns u j hj]
      exact congrArg (· * u_unknowns j) (hKu i j hi hj).symm)
  rw [hB, hI, hsol i hi]
  have hfu' := hfu i hi
  have hred : (reduction K f nt).2 i
      = f (nt.interior_nodes.getD i 0)
        - sum_below nt.bnode_len (fun j =>
            K.coeff (nt.interior_nodes.getD i 0) (nt.boundary_nodes.getD j 0)
              * nt.boundary_values.getD j 0) := hfu'
  rw [hred]
  exact Dbl.add_sub_cancel_of_isFinite
    (isFinite_sum_below (fun j _ => Dbl.isFinite_mul (hK _) (isFinite_getD _ hv j))) (hf _)

/-- C7, witness: three nodes, boundary nodes 0 and 2 with the values 10 and 20, interior
node 1, `K(r, c) = r + 3 c` and `f(n) = 10 n`. The reduced system is `4 u = -140`; with its
solution `u = -35` the row of node 1 gives `1 * 10 + 4 * (-35) + 7 * 20 = 10 = f(1)`. -/
theorem C7_elimination_sound_witness :
    sum_below 3 (fun c =>
        MatrixXd.coeff ⟨3, 3, fun n => Dbl.fin n⟩ 1 c
          * back_substitute ⟨[0, 2], [1], [Dbl.fin 10, Dbl.fin 20], 2, 1⟩
              (fun _ => Dbl.fin (-35)) (fun _ => Dbl.nan) c)
      = Dbl.fin 10 := by
  have hsol : ∀ i, i < (⟨[0, 2], [1], [Dbl.fin 10, Dbl.fin 20], 2, 1⟩ : node_types).inode_len →
      sum_below (⟨[0, 2], [1], [Dbl.fin 10, Dbl.fin 20], 2, 1⟩ : node_types).inode_len
          (fun j => (reduction ⟨3, 3, fun n => Dbl.fin n⟩ (fun n => Dbl.fin (10 * n))
            ⟨[0, 2], [1], [Dbl.fin 10, Dbl.fin 20], 2, 1⟩).1.coeff i j * Dbl.fin (-35))
        = (reduction ⟨3, 3, fun n => Dbl.fin n⟩ (fun n => Dbl.fin (10 * n))
            ⟨[0, 2], [1], [Dbl.fin 10, Dbl.fin 20], 2, 1⟩).2 i := by
    intro i hi
    obtain rfl : i = 0 := Nat.lt_one_iff.mp hi
    obtain ⟨_, h2, h3⟩ := reduction_spec ⟨3, 3, fun n => Dbl.fin n⟩ (fun n => Dbl.fin (10 * n))
      ⟨[0, 2], [1], [Dbl.fin 10, Dbl.fin 20], 2, 1⟩
    rw [h3 0 (by decide)]
    simp only [sum_below, List.range_succ, List.range_zero, List.nil_append, List.map_cons,
      List.map_nil, List.sum_cons, List.sum_nil, add_zero, List.map_append, List.sum_append]
    rw [h2 0 0 (by decide) (by decide)]
    norm_num [MatrixXd.coeff]
  have h := C7_elimination_sound ⟨3, 3, fun n => Dbl.fin n⟩ (fun n => Dbl.fin (10 * n))
    ⟨[0, 2], [1], [Dbl.fin 10, Dbl.fin 20], 2, 1⟩ 3 (by decide) (fun _ => rfl) (fun _ => rfl)
    (by intro v hv; simp at hv; rcases hv with rfl | rfl <;> rfl)
    (fun _ => Dbl.fin (-35)) (fun _ => Dbl.nan) hsol 0 (by decide)
  exact h.trans (by norm_num)

/-! ## Claims about the order of the elements and of the vertices -/

/-- C8: assembly does not depend on the order of the elements. For every mesh, every initial
array `K` and every rearrangement `es` of the element list of the mesh, the assembly loop run
over `es` yields the same array as the assembly loop run over the element list itself. -/
theorem C8_assembly_order_independent (m : msh) (es : List element)
    (h : es.Perm m.elements) (K : Nat → Dbl) :
    assemble { m with elements := es } K = assemble m K := by
  rw [assemble_eq_updates, assemble_eq_updates]
  exact apply_updates_perm (h.flatMap_right (element_updates m)) K

/-- C8, witness: the unit square cut into the triangles (0,1,2) and (1,3,2), a point element
in between, assembled in two different orders. -/
theorem C8_assembly_order_independent_witness :
    assemble ⟨fun n => ⟨(n % 2 : Nat), (n / 2 : Nat)⟩,
        [⟨[1, 3, 2], 2⟩, ⟨[0], 15⟩, ⟨[0, 1, 2], 2⟩], 4, ⟨[], [], [], 0, 0⟩⟩ (fun _ => 0)
      = assemble ⟨fun n => ⟨(n % 2 : Nat), (n / 2 : Nat)⟩,
        [⟨[0, 1, 2], 2⟩, ⟨[1, 3, 2], 2⟩, ⟨[0], 15⟩], 4, ⟨[], [], [], 0, 0⟩⟩ (fun _ => 0) :=
  C8_assembly_order_independent
    ⟨fun n => ⟨(n % 2 : Nat), (n / 2 : Nat)⟩,
      [⟨[0, 1, 2], 2⟩, ⟨[1, 3, 2], 2⟩, ⟨[0], 15⟩], 4, ⟨[], [], [], 0, 0⟩⟩
    [⟨[1, 3, 2], 2⟩, ⟨[0], 15⟩, ⟨[0, 1, 2], 2⟩] (by decide) (fun _ => 0)

/-- C9: consistent winding is not required. For every array `K`, row length `N`, node indices
`i, j, k` and every rearrangement `(i', j', k')` of `(i, j, k)`, `triangle(i', j', k', K, N)`
yields the same array as `triangle(i, j, k, K, N)`; exchanging two vertices, which reverses
the orientation, is one such rearrangement. -/
theorem C9_vertex_order_irrelevant (sf : shape_function) (K : Nat → Dbl) (N : Nat)
    (i j k i' j' k' : Nat) (h : [i', j', k'].Perm [i, j, k]) :
    sf.triangle i' j' k' K N = sf.triangle i j k K N :=
  triangle_perm sf K N h

/-- C9, witness: the triangle with the vertices (0,0), (1,0), (0,1), given clockwise as
(1, 0, 2) and counterclockwise as (0, 1, 2). -/
theorem C9_vertex_order_irrelevant_witness :
    shape_function.triangle ⟨three_nodes ⟨0, 0⟩ ⟨1, 0⟩ ⟨0, 1⟩⟩ 1 0 2 (fun _ => 0) 3
      = shape_function.triangle ⟨three_nodes ⟨0, 0⟩ ⟨1, 0⟩ ⟨0, 1⟩⟩ 0 1 2 (fun _ => 0) 3 :=
  C9_vertex_order_irrelevant ⟨three_nodes ⟨0, 0⟩ ⟨1, 0⟩ ⟨0, 1⟩⟩ (fun _ => 0) 3 0 1 2 1 0 2
    (by decide)

/-! ## Claims about the mesh of a single triangle -/

/-- C10: for every mesh of a single non-degenerate triangle on 3 nodes (listed in
the element in any order), two of them boundary nodes `b1`, `b2` fixed at 10 and 20 and the
third, `i`, interior, with the constant source 0, the reduced `1 × 1` system has exactly one
solution `u`, and `u` is strictly between 10 and 20 exactly when the angles of the triangle at
the two boundary nodes are both acute. -/
theorem C10_interior_value_between (junk : Nat) (P0 P1 P2 : point)
    (hJ : spec_J P0 P1 P2 ≠ 0) (e0 e1 e2 : Nat) (he : [e0, e1, e2].Perm [0, 1, 2])
    (i b1 b2 : Fin 3) (hi1 : i ≠ b1) (hi2 : i ≠ b2) (hb : b1 ≠ b2) :
    ∃ nt, set_node_types junk [(b1.val + 1, Dbl.fin 10), (b2.val + 1, Dbl.fin 20)] 3 = some nt
      ∧ nt.boundary_nodes = [b1.val, b2.val] ∧ nt.interior_nodes = [i.val]
      ∧ ∃ u : ℚ,
          (reduced_system (single_triangle P0 P1 P2 e0 e1 e2 nt)).1.coeff 0 0 * Dbl.fin u
              = (reduced_system (single_triangle P0 P1 P2 e0 e1 e2 nt)).2 0
            ∧ (∀ u' : ℚ,
                (reduced_system (single_triangle P0 P1 P2 e0 e1 e2 nt)).1.coeff 0 0 * Dbl.fin u'
                  = (reduced_system (single_triangle P0 P1 P2 e0 e1 e2 nt)).2 0 → u' = u)
            ∧ ((10 < u ∧ u < 20) ↔
                (0 < dot_at (![P0, P1, P2] b1) (![P0, P1, P2] i) (![P0, P1, P2] b2)
                  ∧ 0 < dot_at (![P0, P1, P2] b2) (![P0, P1, P2] i) (![P0, P1, P2] b1))) :=
  single_triangle_solution junk P0 P1 P2 hJ e0 e1 e2 he i b1 b2 hi1 hi2 hb

/-- C10, witness: the acute triangle with the vertices (0,0), (2,0), (1,2), node 0 interior,
nodes 1 and 2 fixed at 10 and 20: the solved value lies strictly between 10 and 20. -/
theorem C10_interior_value_between_witness :
    ∃ nt, set_node_types 0 [(2, Dbl.fin 10), (3, Dbl.fin 20)] 3 = some nt
      ∧ nt.interior_nodes = [0]
      ∧ ∃ u : ℚ,
          (reduced_system (single_triangle ⟨0, 0⟩ ⟨2, 0⟩ ⟨1, 2⟩ 0 1 2 nt)).1.coeff 0 0 * Dbl.fin u
              = (reduced_system (single_triangle ⟨0, 0⟩ ⟨2, 0⟩ ⟨1, 2⟩ 0 1 2 nt)).2 0
            ∧ 10 < u ∧ u < 20 := by
  obtain ⟨nt, h1, _, h3, u, hu, _, hiff⟩ := C10_interior_value_between 0 ⟨0, 0⟩ ⟨2, 0⟩ ⟨1, 2⟩
    (by norm_num [spec_J, spec_a, spec_b]) 0 1 2 (List.Perm.refl _) 0 1 2
    (by decide) (by decide) (by decide)
  refine ⟨nt, h1, h3, u, hu, ?_⟩
  apply hiff.mpr
  constructor <;> norm_num [dot_at]

/-- C10, counterexample: the right triangle with the vertices (0,0), (1,0), (0,1), node 1
interior, nodes 0 and 2 fixed at 10 and 20. The reduced system is `u / 2 = 5`: its only
solution is 10, which is not strictly between 10 and 20. -/
theorem C10_counterexample :
    ∃ nt, set_node_types 0 [(1, Dbl.fin 10), (3, Dbl.fin 20)] 3 = some nt
      ∧ nt.boundary_nodes = [0, 2] ∧ nt.interior_nodes = [1]
      ∧ (reduced_system (single_triangle ⟨0, 0⟩ ⟨1, 0⟩ ⟨0, 1⟩ 0 1 2 nt)).1.coeff 0 0
          = Dbl.fin (1 / 2)
      ∧ (reduced_system (single_triangle ⟨0, 0⟩ ⟨1, 0⟩ ⟨0, 1⟩ 0 1 2 nt)).2 0 = Dbl.fin 5
      ∧ (reduced_system (single_triangle ⟨0, 0⟩ ⟨1, 0⟩ ⟨0, 1⟩ 0 1 2 nt)).1.coeff 0 0
            * Dbl.fin 10
          = (reduced_system (single_triangle ⟨0, 0⟩ ⟨1, 0⟩ ⟨0, 1⟩ 0 1 2 nt)).2 0
      ∧ ∀ u : ℚ,
          (reduced_system (single_triangle ⟨0, 0⟩ ⟨1, 0⟩ ⟨0, 1⟩ 0 1 2 nt)).1.coeff 0 0
              * Dbl.fin u
            = (reduced_system (single_triangle ⟨0, 0⟩ ⟨1, 0⟩ ⟨0, 1⟩ 0 1 2 nt)).2 0 →
          u = 10 ∧ ¬ (10 < u ∧ u < 20) := by
  have hJ : spec_J ⟨0, 0⟩ ⟨1, 0⟩ ⟨0, 1⟩ ≠ 0 := by norm_num [spec_J, spec_a, spec_b]
  obtain ⟨hK, hf⟩ := single_triangle_system ⟨0, 0⟩ ⟨1, 0⟩ ⟨0, 1⟩ hJ 0 1 2 (List.Perm.refl _)
    1 0 2 10 20
  have eK : spec_local ⟨0, 0⟩ ⟨1, 0⟩ ⟨0, 1⟩ 1 1 = 1 / 2 := by
    norm_num [spec_local, spec_J, spec_a, spec_b]
  have ef : (0 : ℚ) - (spec_local ⟨0, 0⟩ ⟨1, 0⟩ ⟨0, 1⟩ 0 1 * 10
      + spec_local ⟨0, 0⟩ ⟨1, 0⟩ ⟨0, 1⟩ 2 1 * 20) = 5 := by
    norm_num [spec_local, spec_J, spec_a, spec_b]
  rw [eK] at hK
  rw [ef] at hf
  refine ⟨_, classify_single_triangle 0 1 0 2 (by decide) (by decide) (by decide) _ _, rfl, rfl,
    hK, hf, ?_, ?_⟩
  · rw [hK, hf, Dbl.fin_mul_fin]
    norm_num
  · intro u h
    rw [hK, hf, Dbl.fin_mul_fin] at h
    have h' := Dbl.fin_injective h
    have hu : u = 10 := by linarith
    exact ⟨hu, by rw [hu]; norm_num⟩


/-- C11: for every mesh of a single non-degenerate triangle on 3 nodes (listed in the element
in any order) with the interior node `i` and the boundary nodes `b1`, `b2` prescribed
`v1`, `v2`, and the constant source 0, the reduced `1 × 1` system has exactly one solution,
and it is the average of `v1` and `v2` weighted by the stiffness:
`u = (K(i, b1) * v1 + K(i, b2) * v2) / (K(i, b1) + K(i, b2))`, where `K` is the matrix
assembled from the triangle, as `main` reads it. -/
theorem C11_weighted_average (junk : Nat) (P0 P1 P2 : point) (hJ : spec_J P0 P1 P2 ≠ 0)
    (e0 e1 e2 : Nat) (he : [e0, e1, e2].Perm [0, 1, 2]) (i b1 b2 : Fin 3)
    (hi1 : i ≠ b1) (hi2 : i ≠ b2) (hb : b1 ≠ b2) (v1 v2 : ℚ) :
    ∃ nt, set_node_types junk [(b1.val + 1, Dbl.fin v1), (b2.val + 1, Dbl.fin v2)] 3 = some nt
      ∧ nt.boundary_nodes = [b1.val, b2.val] ∧ nt.interior_nodes = [i.val]
      ∧ ∃ k1 k2 u : ℚ,
          (global_K (single_triangle P0 P1 P2 e0 e1 e2 nt)).coeff i.val b1.val = Dbl.fin k1
            ∧ (global_K (single_triangle P0 P1 P2 e0 e1 e2 nt)).coeff i.val b2.val = Dbl.fin k2
            ∧ k1 + k2 ≠ 0
            ∧ (reduced_system (single_triangle P0 P1 P2 e0 e1 e2 nt)).1.coeff 0 0 * Dbl.fin u
                = (reduced_system (single_triangle P0 P1 P2 e0 e1 e2 nt)).2 0
            ∧ (∀ u' : ℚ,
                (reduced_system (single_triangle P0 P1 P2 e0 e1 e2 nt)).1.coeff 0 0 * Dbl.fin u'
                  = (reduced_system (single_triangle P0 P1 P2 e0 e1 e2 nt)).2 0 → u' = u)
            ∧ u = (k1 * v1 + k2 * v2) / (k1 + k2) := by
  refine ⟨_, classify_single_triangle junk i b1 b2 hi1 hi2 hb _ _, rfl, rfl, ?_⟩
  obtain ⟨hK, hf⟩ := single_triangle_system P0 P1 P2 hJ e0 e1 e2 he i b1 b2 v1 v2
  have hA := spec_local_diag_pos hJ i
  have hsum := spec_local_col_sum P0 P1 P2 hi1 hi2 hb
  have hu : spec_local P0 P1 P2 i i
      * ((0 - (spec_local P0 P1 P2 b1 i * v1 + spec_local P0 P1 P2 b2 i * v2))
          / spec_local P0 P1 P2 i i)
      = 0 - (spec_local P0 P1 P2 b1 i * v1 + spec_local P0 P1 P2 b2 i * v2) :=
    mul_div_cancel₀ _ (ne_of_gt hA)
  obtain ⟨hne, havg⟩ := weighted_average (ne_of_gt hA) hsum hu
  refine ⟨spec_local P0 P1 P2 b1 i, spec_local P0 P1 P2 b2 i, _,
    single_triangle_coeff P0 P1 P2 hJ e0 e1 e2 he _ i b1,
    single_triangle_coeff P0 P1 P2 hJ e0 e1 e2 he _ i b2, hne, ?_, ?_, havg⟩
  · rw [hK, hf, Dbl.fin_mul_fin, hu]
  · intro u' h
    rw [hK, hf, Dbl.fin_mul_fin] at h
    exact mul_left_cancel₀ (ne_of_gt hA) ((Dbl.fin_injective h).trans hu.symm)

/-- C11, witness: the triangle with the vertices (0,0), (2,0), (1,2), node 0 interior, nodes 1
and 2 prescribed 10 and 20. The entries are `K(0, 1) = -3/8` and `K(0, 2) = -1/4`, and the
solved value is `(-3/8 * 10 - 1/4 * 20) / (-3/8 - 1/4) = 14`. -/
theorem C11_weighted_average_witness :
    ∃ nt, set_node_types 0 [(2, Dbl.fin 10), (3, Dbl.fin 20)] 3 = some nt
      ∧ (global_K (single_triangle ⟨0, 0⟩ ⟨2, 0⟩ ⟨1, 2⟩ 0 1 2 nt)).coeff 0 1 = Dbl.fin (-3 / 8)
      ∧ (global_K (single_triangle ⟨0, 0⟩ ⟨2, 0⟩ ⟨1, 2⟩ 0 1 2 nt)).coeff 0 2 = Dbl.fin (-1 / 4)
      ∧ (reduced_system (single_triangle ⟨0, 0⟩ ⟨2, 0⟩ ⟨1, 2⟩ 0 1 2 nt)).1.coeff 0 0 * Dbl.fin 14
          = (reduced_system (single_triangle ⟨0, 0⟩ ⟨2, 0⟩ ⟨1, 2⟩ 0 1 2 nt)).2 0 := by
  have hJ : spec_J ⟨0, 0⟩ ⟨2, 0⟩ ⟨1, 2⟩ ≠ 0 := by norm_num [spec_J, spec_a, spec_b]
  obtain ⟨nt, h1, _, _, k1, k2, u, hk1, hk2, _, hu, _, havg⟩ :=
    C11_weighted_average 0 ⟨0, 0⟩ ⟨2, 0⟩ ⟨1, 2⟩ hJ 0 1 2 (List.Perm.refl _) 0 1 2
      (by decide) (by decide) (by decide) 10 20
  have e1 := single_triangle_coeff ⟨0, 0⟩ ⟨2, 0⟩ ⟨1, 2⟩ hJ 0 1 2 (List.Perm.refl _) nt 0 1
  have e2 := single_triangle_coeff ⟨0, 0⟩ ⟨2, 0⟩ ⟨1, 2⟩ hJ 0 1 2 (List.Perm.refl _) nt 0 2
  have v1 : spec_local ⟨0, 0⟩ ⟨2, 0⟩ ⟨1, 2⟩ 1 0 = -3 / 8 := by
    norm_num [spec_local, spec_J, spec_a, spec_b]
  have v2 : spec_local ⟨0, 0⟩ ⟨2, 0⟩ ⟨1, 2⟩ 2 0 = -1 / 4 := by
    norm_num [spec_local, spec_J, spec_a, spec_b]
  rw [v1] at e1
  rw [v2] at e2
  have hk1' : k1 = -3 / 8 := Dbl.fin_injective (hk1.symm.trans e1)
  have hk2' : k2 = -1 / 4 := Dbl.fin_injective (hk2.symm.trans e2)
  have hu14 : u = 14 := by
    rw [havg, hk1', hk2']
    norm_num
  rw [hu14] at hu
  exact ⟨nt, h1, e1, e2, hu⟩

/-! ## Claims about inputs that the specification wants rejected -/

/-- C12: for every three nodes whose coordinates give `J = 0`, `triangle` reports no error. It
evaluates `1.0 / (2 * J)` with `J = 0` and adds the result to `K`: each of the nine entries
`(n_p, n_q)` holds a non-finite value afterwards, and every other entry of `K` is as it was. -/
theorem C12_degenerate_triangle (sf : shape_function) (K : Nat → Dbl) (N i j k : Nat)
    (hJ : sf.J i j k = 0) :
    (∀ p q : Fin 3, sf.entry i j k p q = Dbl.nan)
      ∧ (∀ p q : Fin 3, sf.triangle i j k K N (![i, j, k] p * N + ![i, j, k] q) = Dbl.nan)
      ∧ ∀ c : Nat, (∀ p q : Fin 3, c ≠ ![i, j, k] p * N + ![i, j, k] q) →
          sf.triangle i j k K N c = K c :=
  ⟨fun p q => entry_of_eq sf i j k hJ p q, fun p q => triangle_degenerate sf K N i j k hJ p q,
    fun c hc => triangle_other_cells sf K N i j k c hc⟩

/-- C12, witness: a triangle with the vertex (1,1) given twice and the third vertex (3,2), on
the matrix of order 3 with all entries 1. -/
theorem C12_degenerate_triangle_witness :
    shape_function.J ⟨three_nodes ⟨1, 1⟩ ⟨1, 1⟩ ⟨3, 2⟩⟩ 0 1 2 = 0
      ∧ shape_function.triangle ⟨three_nodes ⟨1, 1⟩ ⟨1, 1⟩ ⟨3, 2⟩⟩ 0 1 2 (fun _ => Dbl.fin 1) 3 5
          = Dbl.nan
      ∧ shape_function.triangle ⟨three_nodes ⟨1, 1⟩ ⟨1, 1⟩ ⟨3, 2⟩⟩ 0 1 2 (fun _ => Dbl.fin 1) 3 9
          = Dbl.fin 1 := by
  have hJ : shape_function.J ⟨three_nodes ⟨1, 1⟩ ⟨1, 1⟩ ⟨3, 2⟩⟩ 0 1 2 = 0 := by
    norm_num [shape_function.J, shape_function.a, shape_function.b, shape_function.x,
      shape_function.y, three_nodes]
  obtain ⟨_, h2, h3⟩ := C12_degenerate_triangle ⟨three_nodes ⟨1, 1⟩ ⟨1, 1⟩ ⟨3, 2⟩⟩
    (fun _ => Dbl.fin 1) 3 0 1 2 hJ
  refine ⟨hJ, h2 1 2, h3 9 ?_⟩
  intro p q
  fin_cases p <;> fin_cases q <;> decide

/-- C12, counterexample: for the collinear vertices (0,0), (1,0), (2,0) `triangle` returns an
array, starting from the zero matrix of order 3, in which the entries (0,0), (1,1) and (1,2)
are non-finite: the division by zero has been accumulated into `K`. -/
theorem C12_counterexample :
    shape_function.J ⟨three_nodes ⟨0, 0⟩ ⟨1, 0⟩ ⟨2, 0⟩⟩ 0 1 2 = 0
      ∧ shape_function.triangle ⟨three_nodes ⟨0, 0⟩ ⟨1, 0⟩ ⟨2, 0⟩⟩ 0 1 2 (fun _ => 0) 3 0
          = Dbl.nan
      ∧ shape_function.triangle ⟨three_nodes ⟨0, 0⟩ ⟨1, 0⟩ ⟨2, 0⟩⟩ 0 1 2 (fun _ => 0) 3 4
          = Dbl.nan
      ∧ shape_function.triangle ⟨three_nodes ⟨0, 0⟩ ⟨1, 0⟩ ⟨2, 0⟩⟩ 0 1 2 (fun _ => 0) 3 5
          = Dbl.nan := by
  have hJ : shape_function.J ⟨three_nodes ⟨0, 0⟩ ⟨1, 0⟩ ⟨2, 0⟩⟩ 0 1 2 = 0 := by
    norm_num [shape_function.J, shape_function.a, shape_function.b, shape_function.x,
      shape_function.y, three_nodes]
  exact ⟨hJ, triangle_degenerate _ _ 3 0 1 2 hJ 0 0, triangle_degenerate _ _ 3 0 1 2 hJ 1 1,
    triangle_degenerate _ _ 3 0 1 2 hJ 1 2⟩

/-- C14: the source function is configured once. After the first call `inh::constant(c0)`,
every later call `inh::constant(c)` returns `c0`, whatever `c` and however many calls have
been made; after the first call `inh::quadratic(x0, y0, a0, b0)`, every later call
`inh::quadratic(x, y, a, b)` returns `a0 * x * x + b0 * y * y`, the arguments `a`, `b` being
ignored. For finite arguments this is the number `a0 x² + b0 y²`. -/
theorem C14_source_configured_once :
    (∀ (c0 : Dbl) (cs : List Dbl),
        constant_calls cs (inh.constant c0 none).2 = cs.map (fun _ => c0))
      ∧ (∀ c0 c : Dbl, inh.constant c (inh.constant c0 none).2
          = (c0, (inh.constant c0 none).2))
      ∧ (∀ (x0 y0 a0 b0 : Dbl) (qs : List (Dbl × Dbl × Dbl × Dbl)),
          quadratic_calls qs (inh.quadratic x0 y0 a0 b0 none).2
            = qs.map (fun q => a0 * q.1 * q.1 + b0 * q.2.1 * q.2.1))
      ∧ (∀ x0 y0 a0 b0 x y a b : Dbl,
          inh.quadratic x y a b (inh.quadratic x0 y0 a0 b0 none).2
            = (a0 * x * x + b0 * y * y, (inh.quadratic x0 y0 a0 b0 none).2))
      ∧ (∀ (x0 y0 : Dbl) (a0 b0 x y : ℚ) (a b : Dbl),
          (inh.quadratic (Dbl.fin x) (Dbl.fin y) a b
              (inh.quadratic x0 y0 (Dbl.fin a0) (Dbl.fin b0) none).2).1
            = Dbl.fin (a0 * x ^ 2 + b0 * y ^ 2))
      ∧ (inh.constant 0 (inh.constant 0 none).2).1 = 0 := by
  refine ⟨fun c0 cs => constant_calls_some c0 cs, fun _ _ => rfl,
    fun _ _ a0 b0 qs => quadratic_calls_some a0 b0 qs, fun _ _ _ _ _ _ _ _ => rfl, ?_, rfl⟩
  intro x0 y0 a0 b0 x y a b
  show Dbl.fin a0 * Dbl.fin x * Dbl.fin x + Dbl.fin b0 * Dbl.fin y * Dbl.fin y = _
  simp only [Dbl.fin_mul_fin, Dbl.fin_add_fin]
  congr 1
  ring

/-! ## Claims about the element list and the output -/

/-- C15: for every sequence of element records (type tag, 1-based node ids) in an
`$Elements` section whose header declares a count that `operator new[]` accepts and that
is at least the number of records of type triangle (2), quadrangle (3), 2nd order triangle (9)
or 2nd order quadrangle (16), the stored element list is exactly, in source order, these
records, each with its type tag and the node ids scanned for its type, every one decremented;
where every such record has as many ids as its type has nodes, these are all its ids, each
less one. Point (15), edge (1) and unrecognized types store nothing, and `element_len` ends as
the number of stored records, whatever the declared count. When the header declares fewer
elements than are stored, a record is written past the end of the array `elements`. -/
theorem C15_stored_elements (old : Nat → Nat → Nat) (declared : Nat)
    (blocks : List element_block) (halloc : declared * 72 < 2 ^ 63) :
    (((element_records blocks).filter (fun r => recognized r.1)).length ≤ declared →
        read_elements old declared blocks
            = outcome.returns (stored_records old blocks,
                ((element_records blocks).filter (fun r => recognized r.1)).length)
          ∧ (stored_records old blocks).length
            = ((element_records blocks).filter (fun r => recognized r.1)).length
          ∧ ((∀ r ∈ element_records blocks, recognized r.1 = true →
                r.2.length = nodes_of_type r.1 ∧ ∀ id ∈ r.2, 1 ≤ id ∧ id < 2 ^ 64) →
              stored_records old blocks
                = ((element_records blocks).filter (fun r => recognized r.1)).map
                    (fun r => (⟨r.2.map (fun id => id - 1), r.1⟩ : element))))
      ∧ (declared < ((element_records blocks).filter (fun r => recognized r.1)).length →
          read_elements old declared blocks = outcome.out_of_bounds)
      ∧ recognized 15 = false ∧ recognized 1 = false
      ∧ (∀ type : Int, recognized type = true ↔ (type = 2 ∨ type = 3 ∨ type = 9 ∨ type = 16))
      ∧ nodes_of_type 2 = 3 ∧ nodes_of_type 3 = 4 ∧ nodes_of_type 9 = 6
      ∧ nodes_of_type 16 = 8 := by
  have hread := read_elements_eq old declared blocks halloc
  refine ⟨?_, ?_, by decide, by decide, ?_, by decide, by decide, by decide, by decide⟩
  · intro hroom
    rw [if_pos hroom] at hread
    refine ⟨hread, ?_, ?_⟩
    · unfold stored_records List.enum
      rw [List.length_map, List.enumFrom_length]
    · intro hrec
      unfold stored_records List.enum
      apply enumFrom_map_scan
      intro r hr
      have hmem := List.mem_filter.mp hr
      exact hrec r hmem.1 hmem.2
  · intro hlt
    rw [if_neg (by omega)] at hread
    exact hread
  · intro type
    simp [recognized]

/-- C15, witness: a section that declares 7 elements and holds a point, two edges, two
triangles, a quadrangle, a record of the unknown type 7 and a 2nd order triangle: four records
are stored. -/
theorem C15_stored_elements_witness :
    read_elements (fun _ _ => 0) 7 [⟨15, [[1]]⟩, ⟨1, [[1, 2], [2, 3]]⟩,
        ⟨2, [[1, 2, 3], [2, 3, 4]]⟩, ⟨3, [[1, 2, 3, 4]]⟩, ⟨7, [[1, 2]]⟩,
        ⟨9, [[1, 2, 3, 4, 5, 6]]⟩]
      = outcome.returns
          ([⟨[0, 1, 2], 2⟩, ⟨[1, 2, 3], 2⟩, ⟨[0, 1, 2, 3], 3⟩, ⟨[0, 1, 2, 3, 4, 5], 9⟩], 4) := by
  have h := (C15_stored_elements (fun _ _ => 0) 7 [⟨15, [[1]]⟩, ⟨1, [[1, 2], [2, 3]]⟩,
    ⟨2, [[1, 2, 3], [2, 3, 4]]⟩, ⟨3, [[1, 2, 3, 4]]⟩, ⟨7, [[1, 2]]⟩,
    ⟨9, [[1, 2, 3, 4, 5, 6]]⟩] (by decide)).1 (by decide)
  exact h.1.trans (by decide)

/-- C15, counterexample: a section whose header declares one element and that holds two
triangles. The array `elements` has one record; the second triangle is written behind it, and
no element list with the two triangles and `element_len = 2` is left. With the header count
2 the same records are stored as the claim says. -/
theorem C15_counterexample :
    read_elements (fun _ _ => 0) 1 [⟨2, [[1, 2, 3], [2, 3, 4]]⟩] = outcome.out_of_bounds
      ∧ read_elements (fun _ _ => 0) 2 [⟨2, [[1, 2, 3], [2, 3, 4]]⟩]
        = outcome.returns ([⟨[0, 1, 2], 2⟩, ⟨[1, 2, 3], 2⟩], 2) := by
  refine ⟨by decide, by decide⟩

/-- C16: for every mesh and full solution `u`, the output loop writes, for the elements in the
order of the element list, for each triangle exactly the four samples `(x, y, u)` of its
vertices `node_ids[0]`, `node_ids[1]`, `node_ids[2]`, `node_ids[0]`, in that order, and no
sample for an element that is not a triangle; every element, triangle or not, is closed by
two line ends. -/
theorem C16_output_samples (m : msh) (u : Nat → Dbl) :
    write_map m u
        = m.elements.flatMap (fun el =>
            (if el.type = TRIANGLE_ID then
              [out_item.sample (m.nodes (el.node_ids.getD 0 0)).x
                  (m.nodes (el.node_ids.getD 0 0)).y (u (el.node_ids.getD 0 0)),
                out_item.sample (m.nodes (el.node_ids.getD 1 0)).x
                  (m.nodes (el.node_ids.getD 1 0)).y (u (el.node_ids.getD 1 0)),
                out_item.sample (m.nodes (el.node_ids.getD 2 0)).x
                  (m.nodes (el.node_ids.getD 2 0)).y (u (el.node_ids.getD 2 0)),
                out_item.sample (m.nodes (el.node_ids.getD 0 0)).x
                  (m.nodes (el.node_ids.getD 0 0)).y (u (el.node_ids.getD 0 0))]
            else []) ++ [out_item.blank])
      ∧ (write_map m u).filter (fun o => decide (o ≠ out_item.blank))
        = m.elements.flatMap (fun el =>
            if el.type = TRIANGLE_ID then outline m u el else []) := by
  have h : write_map m u = m.elements.flatMap (fun el =>
      (if el.type = TRIANGLE_ID then outline m u el else []) ++ [out_item.blank]) := by
    unfold write_map
    rw [foldl_write_map]
    rfl
  refine ⟨h, ?_⟩
  rw [h]
  induction m.elements with
  | nil => rfl
  | cons el els ih =>
    rw [List.flatMap_cons, List.flatMap_cons, List.filter_append, ih]
    congr 1
    by_cases ht : el.type = TRIANGLE_ID
    · simp [ht, outline, List.filter_cons]
    · simp [ht, List.filter_cons]

/-! ## Claims about the empty boundary file, the Jacobian and the symmetry of the matrix -/

/-- C17: what `set_node_types` does on a boundary file without lines. It reads
`boundary_nodes_sort[0]` although the array has no entry, and the interior list it writes runs
from 0 up to the word found there (`junk`), converted to `int`, not up to the node count: on a
mesh of three nodes the list is empty when the word is 0, `[0, 1, 2, 3, 4]` when it is 5, and
`[0, 1, 2]` only when it happens to be 3. -/
theorem C17_empty_boundary_reads_junk :
    (∀ junk node_len : Nat,
        set_node_types junk [] node_len
          = some ⟨[], fill 0 (size_to_int junk), [], 0, size_sub node_len 0⟩)
      ∧ set_node_types 0 [] 3 = some ⟨[], [], [], 0, 3⟩
      ∧ set_node_types 5 [] 3 = some ⟨[], [0, 1, 2, 3, 4], [], 0, 3⟩
      ∧ set_node_types 3 [] 3 = some ⟨[], [0, 1, 2], [], 0, 3⟩ :=
  ⟨set_node_types_empty, by decide, by decide, by decide⟩

/-- C18: for every triangle with the vertices `P0`, `P1`, `P2`, the Jacobian that `triangle`
computes, `J = |a1 * b2 - a2 * b1|`, is the magnitude of twice the signed area,
`|(x1 - x0) (y2 - y0) - (x2 - x0) (y1 - y0)|`; it is 0 exactly when the three vertices lie on
one line, and it is 1 for the vertices (0,0), (1,0), (0,1). -/
theorem C18_jacobian (sf : shape_function) (i j k : Nat) :
    sf.J i j k = |sf.a i j k 1 * sf.b i j k 2 - sf.a i j k 2 * sf.b i j k 1|
      ∧ sf.J i j k
        = |((sf.nodes j).x - (sf.nodes i).x) * ((sf.nodes k).y - (sf.nodes i).y)
            - ((sf.nodes k).x - (sf.nodes i).x) * ((sf.nodes j).y - (sf.nodes i).y)|
      ∧ (sf.J i j k = 0 ↔ collinear (sf.nodes i) (sf.nodes j) (sf.nodes k))
      ∧ shape_function.J ⟨three_nodes ⟨0, 0⟩ ⟨1, 0⟩ ⟨0, 1⟩⟩ 0 1 2 = 1 := by
  refine ⟨rfl, J_eq_cross sf i j k, ?_, ?_⟩
  · rw [J_eq_cross, abs_eq_zero, collinear_iff_cross]
  · norm_num [shape_function.J, shape_function.a, shape_function.b, shape_function.x,
      shape_function.y, three_nodes]

/-- C19: storage order does not matter. Starting from a symmetric array `K` of a matrix of
order `N = node_len`, after the assembly loop has accumulated any list of elements whose
triangles name nodes below `N`, the array is symmetric, `K[r * N + c] = K[c * N + r]` for all
`r, c < N`; hence the coefficient `K(r, c)` that `main` reads from the same array, stored
column after column, is the entry `(r, c)` of the scatter by rows. -/
theorem C19_storage_order (m : msh) (K : Nat → Dbl)
    (hsym : ∀ r c, r < m.node_len → c < m.node_len →
      K (r * m.node_len + c) = K (c * m.node_len + r))
    (hin : ∀ el ∈ m.elements, el.type = TRIANGLE_ID →
      el.node_ids.getD 0 0 < m.node_len ∧ el.node_ids.getD 1 0 < m.node_len
        ∧ el.node_ids.getD 2 0 < m.node_len) :
    (∀ r c, r < m.node_len → c < m.node_len →
        assemble m K (r * m.node_len + c) = assemble m K (c * m.node_len + r))
      ∧ (∀ r c, r < m.node_len → c < m.node_len →
          MatrixXd.coeff ⟨m.node_len, m.node_len, assemble m K⟩ r c
            = assemble m K (r * m.node_len + c))
      ∧ (∀ r c, r < m.node_len → c < m.node_len →
          MatrixXd.coeff ⟨m.node_len, m.node_len, assemble m K⟩ r c
            = MatrixXd.coeff ⟨m.node_len, m.node_len, assemble m K⟩ c r) := by
  have h1 := assemble_symm m K hsym hin
  have h2 : ∀ r c, r < m.node_len → c < m.node_len →
      MatrixXd.coeff ⟨m.node_len, m.node_len, assemble m K⟩ r c
        = assemble m K (r * m.node_len + c) := by
    intro r c hr hc
    show assemble m K (r + c * m.node_len) = _
    rw [Nat.add_comm]
    exact h1 c r hc hr
  refine ⟨h1, h2, ?_⟩
  intro r c hr hc
  rw [h2 r c hr hc, h2 c r hc hr]
  exact h1 r c hr hc

/-- C19, witness: the unit square cut into the triangles (0,1,2) and (1,3,2), assembled from
the zero matrix: the coefficients `K(1, 2)` and `K(2, 1)` that `main` reads agree. -/
theorem C19_storage_order_witness :
    (global_K ⟨fun n => ⟨(n % 2 : Nat), (n / 2 : Nat)⟩,
        [⟨[0, 1, 2], 2⟩, ⟨[1, 3, 2], 2⟩], 4, ⟨[], [], [], 0, 0⟩⟩).coeff 1 2
      = (global_K ⟨fun n => ⟨(n % 2 : Nat), (n / 2 : Nat)⟩,
        [⟨[0, 1, 2], 2⟩, ⟨[1, 3, 2], 2⟩], 4, ⟨[], [], [], 0, 0⟩⟩).coeff 2 1 :=
  (C19_storage_order ⟨fun n => ⟨(n % 2 : Nat), (n / 2 : Nat)⟩,
      [⟨[0, 1, 2], 2⟩, ⟨[1, 3, 2], 2⟩], 4, ⟨[], [], [], 0, 0⟩⟩ (fun _ => 0)
    (fun _ _ _ _ => rfl) (by decide)).2.2 1 2 (by decide) (by decide)

/-- C20: for every triangle with `J > 0`, the entries that `triangle` adds are the finite
numbers `local(p, q) = (1 / (2 J)) (a_p a_q + b_p b_q)`, and for every vector `v` the local
stiffness matrix satisfies `Σ_{p,q} v_p local(p, q) v_q = (1 / (2 J)) ((Σ_p a_p v_p)² +
(Σ_p b_p v_p)²) ≥ 0`. Every diagonal entry `local(p, p)` is strictly positive, so the reduced
`1 × 1` system of the mesh of this single triangle has a solution, whichever node is interior
and whatever is prescribed at the other two. -/
theorem C20_positive_semidefinite (sf : shape_function) (i j k : Nat) (hJ : 0 < sf.J i j k) :
    (∀ p q : Fin 3, sf.entry i j k p q
        = Dbl.fin (spec_local (sf.nodes i) (sf.nodes j) (sf.nodes k) p q))
      ∧ (∀ v : Fin 3 → ℚ,
          ∑ p : Fin 3, ∑ q : Fin 3,
              v p * spec_local (sf.nodes i) (sf.nodes j) (sf.nodes k) p q * v q
            = 1 / (2 * sf.J i j k)
              * ((∑ p : Fin 3, sf.a i j k p * v p) ^ 2 + (∑ p : Fin 3, sf.b i j k p * v p) ^ 2)
          ∧ 0 ≤ ∑ p : Fin 3, ∑ q : Fin 3,
              v p * spec_local (sf.nodes i) (sf.nodes j) (sf.nodes k) p q * v q)
      ∧ (∀ p : Fin 3, 0 < spec_local (sf.nodes i) (sf.nodes j) (sf.nodes k) p p)
      ∧ ∀ (e0 e1 e2 : Nat) (i0 b1 b2 : Fin 3) (q1 q2 : ℚ), [e0, e1, e2].Perm [0, 1, 2] →
          ∃ u : ℚ,
            (reduced_system (single_triangle (sf.nodes i) (sf.nodes j) (sf.nodes k) e0 e1 e2
                ⟨[b1.val, b2.val], [i0.val], [Dbl.fin q1, Dbl.fin q2], 2, 1⟩)).1.coeff 0 0
                * Dbl.fin u
              = (reduced_system (single_triangle (sf.nodes i) (sf.nodes j) (sf.nodes k)
                  e0 e1 e2
                  ⟨[b1.val, b2.val], [i0.val], [Dbl.fin q1, Dbl.fin q2], 2, 1⟩)).2 0 := by
  have hne : spec_J (sf.nodes i) (sf.nodes j) (sf.nodes k) ≠ 0 := ne_of_gt hJ
  have hid : ∀ v : Fin 3 → ℚ,
      ∑ p : Fin 3, ∑ q : Fin 3,
          v p * spec_local (sf.nodes i) (sf.nodes j) (sf.nodes k) p q * v q
        = 1 / (2 * sf.J i j k)
          * ((∑ p : Fin 3, sf.a i j k p * v p) ^ 2 + (∑ p : Fin 3, sf.b i j k p * v p) ^ 2) := by
    intro v
    rw [J_eq_spec, a_eq_spec, b_eq_spec]
    simp only [Fin.sum_univ_three, spec_local]
    ring
  refine ⟨fun p q => entry_of_ne sf i j k hne p q, fun v => ⟨hid v, ?_⟩,
    fun p => spec_local_diag_pos hne p, ?_⟩
  · rw [hid v]
    have : 0 < 1 / (2 * sf.J i j k) := by positivity
    positivity
  · intro e0 e1 e2 i0 b1 b2 q1 q2 he
    obtain ⟨hK, hf⟩ := single_triangle_system (sf.nodes i) (sf.nodes j) (sf.nodes k) hne
      e0 e1 e2 he i0 b1 b2 q1 q2
    have hA := spec_local_diag_pos hne i0
    refine ⟨(0 - (spec_local (sf.nodes i) (sf.nodes j) (sf.nodes k) b1 i0 * q1
      + spec_local (sf.nodes i) (sf.nodes j) (sf.nodes k) b2 i0 * q2))
      / spec_local (sf.nodes i) (sf.nodes j) (sf.nodes k) i0 i0, ?_⟩
    rw [hK, hf, Dbl.fin_mul_fin, mul_div_cancel₀ _ (ne_of_gt hA)]

/-- C20, witness: the triangle with the vertices (0,0), (1,0), (0,1), where `J = 1`: the
diagonal entries are 1, 1/2 and 1/2, and the vector `v = (1, 2, 4)` gives the value
`(1 / 2) ((1 - 4)² + (-1 + 2)²) = 5`. -/
theorem C20_positive_semidefinite_witness :
    shape_function.J ⟨three_nodes ⟨0, 0⟩ ⟨1, 0⟩ ⟨0, 1⟩⟩ 0 1 2 = 1
      ∧ shape_function.entry ⟨three_nodes ⟨0, 0⟩ ⟨1, 0⟩ ⟨0, 1⟩⟩ 0 1 2 0 0 = Dbl.fin 1
      ∧ shape_function.entry ⟨three_nodes ⟨0, 0⟩ ⟨1, 0⟩ ⟨0, 1⟩⟩ 0 1 2 1 1 = Dbl.fin (1 / 2)
      ∧ ∑ p : Fin 3, ∑ q : Fin 3,
          (![1, 2, 4] : Fin 3 → ℚ) p * spec_local ⟨0, 0⟩ ⟨1, 0⟩ ⟨0, 1⟩ p q
            * (![1, 2, 4] : Fin 3 → ℚ) q = 5 := by
  have hJ : shape_function.J ⟨three_nodes ⟨0, 0⟩ ⟨1, 0⟩ ⟨0, 1⟩⟩ 0 1 2 = 1 := by
    norm_num [shape_function.J, shape_function.a, shape_function.b, shape_function.x,
      shape_function.y, three_nodes]
  obtain ⟨h1, h2, _, _⟩ := C20_positive_semidefinite ⟨three_nodes ⟨0, 0⟩ ⟨1, 0⟩ ⟨0, 1⟩⟩ 0 1 2
    (by rw [hJ]; exact one_pos)
  refine ⟨hJ, ?_, ?_, ?_⟩
  · rw [h1 0 0]
    norm_num [spec_local, spec_J, spec_a, spec_b, three_nodes]
  · rw [h1 1 1]
    norm_num [spec_local, spec_J, spec_a, spec_b, three_nodes]
  · have h := (h2 ![1, 2, 4]).1
    rw [hJ] at h
    refine h.trans ?_
    norm_num [Fin.sum_univ_three, shape_function.a, shape_function.b, shape_function.x,
      shape_function.y, three_nodes]

end FEM
